import Mathlib

/-!
# AVL tree (`avl.c`): a shallow embedding and its verification

The C program keeps a height-balanced binary search tree of `int` values.
This file embeds the data model and the balancing engine of `avl.c` and proves
properties of insertion and removal.

Modelling conventions.

* A `NODE*` is a value of the inductive type `NODE`; the null pointer is
  `NODE.NULL`.  The tree owns its nodes exclusively, so a pointer structure
  without sharing is exactly a finite binary tree.
* `ITEM` is `int`.  Values are only ever compared, never computed with, so
  they are embedded as `Int`; the predicate `item_range` singles out the values
  a C `int` can hold.
* Cached heights are `int` in C and `Int` here.  The code adds one to a height,
  subtracts two heights and squares a balance factor.  The square is the one
  product that can leave the range of `int` on a tree whose cached heights are
  correct (a balance factor of magnitude 46341 suffices), so it is modelled in
  32 bits by `c_int_mul`.  Sums and differences of heights are computed on
  integers: in a height-correct tree a height is smaller than the number of
  nodes, and on the trees the program builds heights are logarithmic in it.
* Dereferencing a null pointer is undefined in C.  Every function that may do so
  returns `Option`, with `none` standing for the undefined behaviour.
* `malloc` is assumed to succeed.
* `insert_avl_node` and `remove_avl_node` additionally return a ghost trace of
  `Event`s which records the console output and which branches were taken.
-/

namespace Avl

/-- A `struct node *`: either the null pointer or a node with its two children,
its cached height and its value. -/
inductive NODE where
  | NULL : NODE
  | mk (left : NODE) (right : NODE) (height : Int) (value : Int) : NODE
  deriving DecidableEq, Repr

/-- A `struct avl`: the handle that holds the root link. -/
structure AVL where
  root : NODE
  deriving DecidableEq, Repr

/-- Ghost events recorded while `insert_avl_node` and `remove_avl_node` run. -/
inductive Event where
  /-- The call `printf("Invalid value.\n")` in `insert_avl_node`. -/
  | invalid_value : Event
  /-- The call `rebalance(node)` was made on this node (after its height update). -/
  | rebalance_call (a : NODE) : Event
  /-- The function `remove_avl_node` found the key at a node without right child or without
  left child and replaced the node by its other child. -/
  | splice_out (value : Int) : Event
  /-- The function `remove_avl_node` found the key at a node with two children and overwrote
  its value with `new_value`. -/
  | two_children (value : Int) (new_value : Int) : Event
  deriving DecidableEq, Repr

/-- The values of type `int` (32 bits, two's complement). -/
def item_range (x : Int) : Prop := -2147483648 ≤ x ∧ x < 2147483648

instance (x : Int) : Decidable (item_range x) := by
  unfold item_range; infer_instance

/-- Function `create_avl`: a tree with an absent root. -/
def create_avl : AVL := ⟨NODE.NULL⟩

/-- Function `initialize_node`: a node holding `value` with no children.  The C function
does not write the `height` field; `junk` is whatever the fresh memory holds. -/
def initialize_node (value : Int) (junk : Int) : NODE :=
  NODE.mk NODE.NULL NODE.NULL junk value

/-- Function `get_root`. -/
def get_root (tree : AVL) : NODE := tree.root

/-- Function `node_height`: the cached height, or `-1` for the null pointer. -/
def node_height : NODE → Int
  | NODE.NULL => -1
  | NODE.mk _ _ height _ => height

/-- The C expression `max(a, b)`, a textual replacement by `(a > b) ? a : b`. -/
def c_max (a b : Int) : Int := if a > b then a else b

/-- Function `height_update`: store `max(height(left), height(right)) + 1` in the node. -/
def height_update : NODE → Option NODE
  | NODE.NULL => none
  | NODE.mk l r _ v => some (NODE.mk l r (c_max (node_height l) (node_height r) + 1) v)

/-- Function `balance_factor`: `height(left) - height(right)`. -/
def balance_factor : NODE → Option Int
  | NODE.NULL => none
  | NODE.mk l r _ _ => some (node_height l - node_height r)

/-- Function `left_rotate`: the right child `b` of `a` becomes the root, `a` becomes its
left child and takes over the former left child of `b`. -/
def left_rotate : NODE → Option NODE
  | NODE.mk al (NODE.mk bl br bh bv) ah av => do
      let a ← height_update (NODE.mk al bl ah av)
      height_update (NODE.mk a br bh bv)
  | _ => none

/-- Function `right_rotate`: the mirror image of `left_rotate`. -/
def right_rotate : NODE → Option NODE
  | NODE.mk (NODE.mk bl br bh bv) ar ah av => do
      let a ← height_update (NODE.mk br ar ah av)
      height_update (NODE.mk bl a bh bv)
  | _ => none

/-- Function `left_right_rotate`: `a->left = left_rotate(a->left); return right_rotate(a);`. -/
def left_right_rotate : NODE → Option NODE
  | NODE.NULL => none
  | NODE.mk l r h v => do
      let l1 ← left_rotate l
      right_rotate (NODE.mk l1 r h v)

/-- Function `right_left_rotate`: `a->right = right_rotate(a->right); return left_rotate(a);`. -/
def right_left_rotate : NODE → Option NODE
  | NODE.NULL => none
  | NODE.mk l r h v => do
      let r1 ← right_rotate r
      left_rotate (NODE.mk l r1 h v)

/-- Function `rebalance`: choose the rotation from the signs of the balance factors of
`a` and of its taller child. -/
def rebalance : NODE → Option NODE
  | NODE.NULL => none
  | NODE.mk l r h v => do
      let balance ← balance_factor (NODE.mk l r h v)
      if balance ≥ 0 then do
        let bl ← balance_factor l
        if bl < 0 then left_right_rotate (NODE.mk l r h v)
        else right_rotate (NODE.mk l r h v)
      else if balance < 0 then do
        let br ← balance_factor r
        if br > 0 then right_left_rotate (NODE.mk l r h v)
        else left_rotate (NODE.mk l r h v)
      else none

/-- The value of type `int` that a 32-bit two's-complement machine keeps of the
integer `x`: `x` itself when it is in range, `x` reduced modulo `2 ^ 32`
otherwise. -/
def int_wrap (x : Int) : Int := (x + 2147483648) % 4294967296 - 2147483648

/-- The C expression `a * b` on operands of type `int`.  The product is formed
in 32 bits; where it overflows (undefined in C) the model takes the wrapped
value that two's-complement machines produce. -/
def c_int_mul (a b : Int) : Int := int_wrap (a * b)

/-- The common tail of `insert_avl_node` and `remove_avl_node`:
`height_update(node); balance = balance_factor(node);`
`if (balance * balance > 2) return rebalance(node); return node;`.
A call of `rebalance` is appended to the trace. -/
def update_and_check (node : NODE) (log : List Event) : Option (NODE × List Event) := do
  let node1 ← height_update node
  let balance ← balance_factor node1
  if c_int_mul balance balance > 2 then do
    let node2 ← rebalance node1
    some (node2, log ++ [Event.rebalance_call node1])
  else some (node1, log)

/-- Function `insert_avl_node`.  The junk height of the fresh node is overwritten by the
height update that follows, so it is taken to be `0`. -/
def insert_avl_node : NODE → Int → Option (NODE × List Event)
  | NODE.NULL, value => update_and_check (initialize_node value 0) []
  | NODE.mk l r h v, value =>
      if value < v then do
        let res ← insert_avl_node l value
        update_and_check (NODE.mk res.1 r h v) res.2
      else if value > v then do
        let res ← insert_avl_node r value
        update_and_check (NODE.mk l res.1 h v) res.2
      else if value = v then some (NODE.mk l r h v, [Event.invalid_value])
      else update_and_check (NODE.mk l r h v) []

/-- Function `insert_avl`: replace the root by the result of `insert_avl_node`. -/
def insert_avl (tree : AVL) (value : Int) : Option AVL :=
  (insert_avl_node tree.root value).map (fun res => AVL.mk res.1)

/-- Function `smallest_in_subtree`: follow left links from `node` and return the value of
the last node. -/
def smallest_in_subtree : NODE → Option Int
  | NODE.NULL => none
  | NODE.mk NODE.NULL _ _ v => some v
  | NODE.mk (NODE.mk ll lr lh lv) _ _ _ => smallest_in_subtree (NODE.mk ll lr lh lv)

/-- The test `node == NULL`. -/
def NODE.is_null : NODE → Bool
  | NODE.NULL => true
  | NODE.mk _ _ _ _ => false

/-- The end of `remove_avl_node`: `if (node == NULL) return node;` followed by
the common tail. -/
def remove_tail (node : NODE) (log : List Event) : Option (NODE × List Event) :=
  if node.is_null then some (node, log) else update_and_check node log

/-- Function `remove_avl_node`. -/
def remove_avl_node : NODE → Int → Option (NODE × List Event)
  | NODE.NULL, _ => some (NODE.NULL, [])
  | NODE.mk l r h v, key =>
      if key < v then do
        let res ← remove_avl_node l key
        remove_tail (NODE.mk res.1 r h v) res.2
      else if key > v then do
        let res ← remove_avl_node r key
        remove_tail (NODE.mk l res.1 h v) res.2
      else if key = v then
        if r.is_null then remove_tail l [Event.splice_out v]
        else if l.is_null then remove_tail r [Event.splice_out v]
        else do
          let new_value ← smallest_in_subtree r
          let res ← remove_avl_node r new_value
          remove_tail (NODE.mk l res.1 h new_value) (Event.two_children v new_value :: res.2)
      else remove_tail (NODE.mk l r h v) []

/-- Function `remove_avl`: replace the root by the result of `remove_avl_node`. -/
def remove_avl (tree : AVL) (value : Int) : Option AVL :=
  (remove_avl_node tree.root value).map (fun res => AVL.mk res.1)

/-- Function `avl_print_sorted`: the values in the order the in-order walk prints them. -/
def avl_print_sorted : NODE → List Int
  | NODE.NULL => []
  | NODE.mk l r _ v => avl_print_sorted l ++ v :: avl_print_sorted r

/-- Insert the values of a list one by one, starting from `tree`. -/
def insert_list : AVL → List Int → Option AVL
  | tree, [] => some tree
  | tree, v :: vs => (insert_avl tree v).bind (fun t => insert_list t vs)

/-! ## The invariants of the data model -/

/-- BST order: at every node the values of the left subtree are strictly smaller
and the values of the right subtree strictly greater than the node's value. -/
def bst_order : NODE → Prop
  | NODE.NULL => True
  | NODE.mk l r _ v =>
      (∀ x ∈ avl_print_sorted l, x < v) ∧ (∀ x ∈ avl_print_sorted r, v < x) ∧
        bst_order l ∧ bst_order r

/-- Height correctness: every cached height is one more than the larger of the
heights of the children, an absent child counting as `-1`. -/
def height_correct : NODE → Prop
  | NODE.NULL => True
  | NODE.mk l r h _ =>
      h = 1 + max (node_height l) (node_height r) ∧ height_correct l ∧ height_correct r

/-- AVL balance: at every node the heights of the two children differ by at
most one. -/
def avl_balance : NODE → Prop
  | NODE.NULL => True
  | NODE.mk l r _ _ =>
      |node_height l - node_height r| ≤ 1 ∧ avl_balance l ∧ avl_balance r

instance decidable_bst_order : (t : NODE) → Decidable (bst_order t)
  | NODE.NULL => isTrue trivial
  | NODE.mk l r _ v =>
      have := decidable_bst_order l
      have := decidable_bst_order r
      by unfold bst_order; infer_instance

instance decidable_height_correct : (t : NODE) → Decidable (height_correct t)
  | NODE.NULL => isTrue trivial
  | NODE.mk l r _ _ =>
      have := decidable_height_correct l
      have := decidable_height_correct r
      by unfold height_correct; infer_instance

instance decidable_avl_balance : (t : NODE) → Decidable (avl_balance t)
  | NODE.NULL => isTrue trivial
  | NODE.mk l r _ _ =>
      have := decidable_avl_balance l
      have := decidable_avl_balance r
      by unfold avl_balance; infer_instance

/-- The number of nodes of a tree. -/
def size : NODE → Nat
  | NODE.NULL => 0
  | NODE.mk l r _ _ => size l + size r + 1

/-- The number of calls of `rebalance` recorded in a trace. -/
def rebalance_count : List Event → Nat
  | [] => 0
  | Event.rebalance_call _ :: es => rebalance_count es + 1
  | _ :: es => rebalance_count es

/-- The value stored at the root, if there is one. -/
def root_value : NODE → Option Int
  | NODE.NULL => none
  | NODE.mk _ _ _ v => some v

/-- The field access `node->right`. -/
def NODE.right_link : NODE → Option NODE
  | NODE.NULL => none
  | NODE.mk _ r _ _ => some r

/-- A small tree used to exercise the theorems: `2` at the root with the left
child `1`, so that inserting `0` makes a rotation necessary. -/
def sample_left_chain : AVL :=
  ⟨NODE.mk (NODE.mk NODE.NULL NODE.NULL 0 1) NODE.NULL 1 2⟩

/-- A tree of four values used to exercise the theorems: `2` at the root, `1` on
its left, `4` on its right and `3` below `4`; removing `1` makes a double
rotation necessary. -/
def sample_four : AVL :=
  ⟨NODE.mk (NODE.mk NODE.NULL NODE.NULL 0 1)
    (NODE.mk (NODE.mk NODE.NULL NODE.NULL 0 3) NODE.NULL 1 4) 2 2⟩

/-- The field access `node->left`. -/
def NODE.left_link : NODE → Option NODE
  | NODE.NULL => none
  | NODE.mk l _ _ _ => some l

/-- The nodes on which `rebalance` was called, in the order of the calls. -/
def rebalance_calls : List Event → List NODE
  | [] => []
  | Event.rebalance_call a :: es => a :: rebalance_calls es
  | _ :: es => rebalance_calls es

/-- Every call of `rebalance` recorded in the trace was made on a node whose
balance factor is exactly `2` or exactly `-2`. -/
def calls_off_by_two (log : List Event) : Prop :=
  ∀ a ∈ rebalance_calls log, balance_factor a = some 2 ∨ balance_factor a = some (-2)

instance (log : List Event) : Decidable (calls_off_by_two log) := by
  unfold calls_off_by_two; infer_instance

/-- The number of times the trace records the zero-or-one-child branch of
`remove_avl_node`. -/
def splice_count : List Event → Nat
  | [] => 0
  | Event.splice_out _ :: es => splice_count es + 1
  | _ :: es => splice_count es

/-- The number of times the trace records the two-children branch of
`remove_avl_node`. -/
def two_children_count : List Event → Nat
  | [] => 0
  | Event.two_children _ _ :: es => two_children_count es + 1
  | _ :: es => two_children_count es

/-- A leaf: a node without children whose cached height is `0`. -/
def leaf (v : Int) : NODE := NODE.mk NODE.NULL NODE.NULL 0 v

/-- A tree of twelve values, `5` at the root, whose left subtree (values 1 to 4)
has height 2 and whose right subtree (values 6 to 12) has height 3.  Removing
`1` unbalances the node `2` and then, after its rotation, the root. -/
def sample_cascade : AVL :=
  ⟨NODE.mk
    (NODE.mk (leaf 1) (NODE.mk NODE.NULL (leaf 4) 1 3) 2 2)
    (NODE.mk (NODE.mk NODE.NULL (leaf 7) 1 6)
      (NODE.mk (leaf 9) (NODE.mk NODE.NULL (leaf 12) 1 11) 2 10) 3 8)
    4 5⟩

/-- A left-heavy node whose left child has balance factor `0`: the shape that
`remove_avl_node` produces when it has removed the right child of `4`. -/
def sample_even_child : NODE :=
  NODE.mk (NODE.mk (leaf 1) (leaf 3) 1 2) NODE.NULL 2 4

/-! ## Basic facts -/

theorem c_max_eq (a b : Int) : c_max a b = max a b := by
  unfold c_max
  split <;> omega

@[simp] theorem node_height_NULL : node_height NODE.NULL = -1 := rfl

@[simp] theorem node_height_mk (l r : NODE) (h v : Int) :
    node_height (NODE.mk l r h v) = h := rfl

@[simp] theorem height_update_mk (l r : NODE) (h v : Int) :
    height_update (NODE.mk l r h v)
      = some (NODE.mk l r (max (node_height l) (node_height r) + 1) v) := by
  simp only [height_update, c_max_eq]

@[simp] theorem balance_factor_mk (l r : NODE) (h v : Int) :
    balance_factor (NODE.mk l r h v) = some (node_height l - node_height r) := rfl

@[simp] theorem balance_factor_NULL : balance_factor NODE.NULL = none := rfl

theorem node_height_ge (t : NODE) (h : height_correct t) : -1 ≤ node_height t := by
  induction t with
  | NULL => simp
  | mk l r ht v ihl ihr =>
    obtain ⟨h1, h2, h3⟩ := h
    have := ihl h2
    have := ihr h3
    simp only [node_height_mk]
    omega

/-- The in-order sequence is strictly ascending exactly when the tree is
BST-ordered. -/
theorem bst_order_iff_sorted (t : NODE) :
    bst_order t ↔ (avl_print_sorted t).Pairwise (· < ·) := by
  induction t with
  | NULL => simp [bst_order, avl_print_sorted]
  | mk l r ht v ihl ihr =>
    simp only [bst_order, avl_print_sorted, List.pairwise_append, List.pairwise_cons, ihl, ihr,
      List.mem_cons]
    constructor
    · rintro ⟨h1, h2, h3, h4⟩
      refine ⟨h3, ⟨h2, h4⟩, ?_⟩
      rintro a ha b (rfl | hb)
      · exact h1 a ha
      · exact lt_trans (h1 a ha) (h2 b hb)
    · rintro ⟨h1, ⟨h2, h3⟩, h4⟩
      exact ⟨fun x hx => h4 x hx v (Or.inl rfl), h2, h1, h3⟩

/-- Rebalancing a node whose left subtree is two higher than its right subtree. -/
theorem rebalance_left_heavy (l r : NODE) (h v : Int)
    (hl : height_correct l) (hr : height_correct r)
    (bl : avl_balance l) (br : avl_balance r)
    (hd : node_height l = node_height r + 2) :
    ∃ t, rebalance (NODE.mk l r h v) = some t ∧ height_correct t ∧ avl_balance t ∧
      avl_print_sorted t = avl_print_sorted (NODE.mk l r h v) ∧
      (node_height t = node_height l ∨ node_height t = node_height l + 1) ∧
      (node_height t = node_height l + 1 ↔ balance_factor l = some 0) ∧
      balance_factor t ≠ none := by
  have gr := node_height_ge r hr
  cases l with
  | NULL => simp at hd; omega
  | mk ll lr lh lv =>
    obtain ⟨hl1, hl2, hl3⟩ := hl
    obtain ⟨bl1, bl2, bl3⟩ := bl
    have gll := node_height_ge ll hl2
    have glr := node_height_ge lr hl3
    rw [abs_le] at bl1
    simp only [node_height_mk] at hd
    by_cases hneg : node_height ll - node_height lr < 0
    · cases lr with
      | NULL => simp at hneg; omega
      | mk lrl lrr lrh lrv =>
        obtain ⟨hlr1, hlr2, hlr3⟩ := hl3
        obtain ⟨blr1, blr2, blr3⟩ := bl3
        have glrl := node_height_ge lrl hlr2
        have glrr := node_height_ge lrr hlr3
        rw [abs_le] at blr1
        simp only [node_height_mk] at hneg bl1 hl1 glr
        have e1 : rebalance (NODE.mk (NODE.mk ll (NODE.mk lrl lrr lrh lrv) lh lv) r h v)
            = some (NODE.mk (NODE.mk ll lrl (max (node_height ll) (node_height lrl) + 1) lv)
                (NODE.mk lrr r (max (node_height lrr) (node_height r) + 1) v)
                (max (max (node_height ll) (node_height lrl) + 1)
                  (max (node_height lrr) (node_height r) + 1) + 1) lrv) := by
          simp [rebalance, left_right_rotate, left_rotate, right_rotate, hneg]
          omega
        refine ⟨_, e1, ?_, ?_, ?_, ?_, ?_, ?_⟩
        · simp only [height_correct, node_height_mk]
          refine ⟨by omega, ⟨by omega, hl2, hlr2⟩, ⟨by omega, hlr3, hr⟩⟩
        · simp only [avl_balance, node_height_mk, abs_le]
          refine ⟨by omega, ⟨by omega, bl2, blr2⟩, ⟨by omega, blr3, br⟩⟩
        · simp [avl_print_sorted]
        · simp only [node_height_mk]; omega
        · simp only [node_height_mk, balance_factor_mk, Option.some.injEq]; omega
        · simp
    · have e1 : rebalance (NODE.mk (NODE.mk ll lr lh lv) r h v)
          = some (NODE.mk ll (NODE.mk lr r (max (node_height lr) (node_height r) + 1) v)
              (max (node_height ll) (max (node_height lr) (node_height r) + 1) + 1) lv) := by
        simp [rebalance, right_rotate, hneg]
        omega
      refine ⟨_, e1, ?_, ?_, ?_, ?_, ?_, ?_⟩
      · simp only [height_correct, node_height_mk]
        refine ⟨by omega, hl2, ⟨by omega, hl3, hr⟩⟩
      · simp only [avl_balance, node_height_mk, abs_le]
        refine ⟨by omega, bl2, ⟨by omega, bl3, br⟩⟩
      · simp [avl_print_sorted]
      · simp only [node_height_mk]; omega
      · simp only [node_height_mk, balance_factor_mk, Option.some.injEq]; omega
      · simp

/-- Rebalancing a node whose right subtree is two higher than its left subtree. -/
theorem rebalance_right_heavy (l r : NODE) (h v : Int)
    (hl : height_correct l) (hr : height_correct r)
    (bl : avl_balance l) (br : avl_balance r)
    (hd : node_height r = node_height l + 2) :
    ∃ t, rebalance (NODE.mk l r h v) = some t ∧ height_correct t ∧ avl_balance t ∧
      avl_print_sorted t = avl_print_sorted (NODE.mk l r h v) ∧
      (node_height t = node_height r ∨ node_height t = node_height r + 1) ∧
      (node_height t = node_height r + 1 ↔ balance_factor r = some 0) ∧
      balance_factor t ≠ none := by
  have gl := node_height_ge l hl
  cases r with
  | NULL => simp at hd; omega
  | mk rl rr rh rv =>
    obtain ⟨hr1, hr2, hr3⟩ := hr
    obtain ⟨br1, br2, br3⟩ := br
    have grl := node_height_ge rl hr2
    have grr := node_height_ge rr hr3
    rw [abs_le] at br1
    simp only [node_height_mk] at hd
    have hb : ¬ (node_height l - rh ≥ 0) := by omega
    have hb2 : node_height l - rh < 0 := by omega
    by_cases hpos : node_height rl - node_height rr > 0
    · cases rl with
      | NULL => simp at hpos; omega
      | mk rll rlr rlh rlv =>
        obtain ⟨hrl1, hrl2, hrl3⟩ := hr2
        obtain ⟨brl1, brl2, brl3⟩ := br2
        have grll := node_height_ge rll hrl2
        have grlr := node_height_ge rlr hrl3
        rw [abs_le] at brl1
        simp only [node_height_mk] at hpos br1 hr1 grl
        have e1 : rebalance (NODE.mk l (NODE.mk (NODE.mk rll rlr rlh rlv) rr rh rv) h v)
            = some (NODE.mk (NODE.mk l rll (max (node_height l) (node_height rll) + 1) v)
                (NODE.mk rlr rr (max (node_height rlr) (node_height rr) + 1) rv)
                (max (max (node_height l) (node_height rll) + 1)
                  (max (node_height rlr) (node_height rr) + 1) + 1) rlv) := by
          simp [rebalance, right_left_rotate, left_rotate, right_rotate, hpos, hb, hb2]
        refine ⟨_, e1, ?_, ?_, ?_, ?_, ?_, ?_⟩
        · simp only [height_correct, node_height_mk]
          refine ⟨by omega, ⟨by omega, hl, hrl2⟩, ⟨by omega, hrl3, hr3⟩⟩
        · simp only [avl_balance, node_height_mk, abs_le]
          refine ⟨by omega, ⟨by omega, bl, brl2⟩, ⟨by omega, brl3, br3⟩⟩
        · simp [avl_print_sorted]
        · simp only [node_height_mk]; omega
        · simp only [node_height_mk, balance_factor_mk, Option.some.injEq]; omega
        · simp
    · have hpos2 : node_height rl ≤ node_height rr := by omega
      have e1 : rebalance (NODE.mk l (NODE.mk rl rr rh rv) h v)
          = some (NODE.mk (NODE.mk l rl (max (node_height l) (node_height rl) + 1) v) rr
              (max (max (node_height l) (node_height rl) + 1) (node_height rr) + 1) rv) := by
        simp [rebalance, left_rotate, hpos2, hb, hb2]
      refine ⟨_, e1, ?_, ?_, ?_, ?_, ?_, ?_⟩
      · simp only [height_correct, node_height_mk]
        refine ⟨by omega, ⟨by omega, hl, hr2⟩, hr3⟩
      · simp only [avl_balance, node_height_mk, abs_le]
        refine ⟨by omega, ⟨by omega, bl, br2⟩, br3⟩
      · simp [avl_print_sorted]
      · simp only [node_height_mk]; omega
      · simp only [node_height_mk, balance_factor_mk, Option.some.injEq]; omega
      · simp

/-- The common tail applied to a node whose children are balanced, height-correct
trees of nearly equal height: nothing but the cached height changes. -/
theorem update_and_check_balanced (l r : NODE) (h v : Int) (log : List Event)
    (hd : |node_height l - node_height r| ≤ 1) :
    update_and_check (NODE.mk l r h v) log
      = some (NODE.mk l r (1 + max (node_height l) (node_height r)) v, log) := by
  rw [abs_le] at hd
  have h2 : ¬ (c_int_mul (node_height l - node_height r) (node_height l - node_height r) > 2) := by
    have h3 : node_height l - node_height r = -1 ∨ node_height l - node_height r = 0
        ∨ node_height l - node_height r = 1 := by omega
    rcases h3 with h3 | h3 | h3 <;> rw [h3] <;> decide
  simp only [update_and_check, height_update_mk, balance_factor_mk, Option.bind_eq_bind,
    Option.some_bind, h2, if_false, add_comm]

/-- The common tail applied to a node whose left subtree is two higher. -/
theorem update_and_check_left_heavy (l r : NODE) (h v : Int) (log : List Event)
    (hd : node_height l = node_height r + 2) :
    update_and_check (NODE.mk l r h v) log
      = (rebalance (NODE.mk l r (1 + max (node_height l) (node_height r)) v)).map
          (fun t => (t, log ++ [Event.rebalance_call
            (NODE.mk l r (1 + max (node_height l) (node_height r)) v)])) := by
  have h3 : node_height l - node_height r = 2 := by omega
  simp only [update_and_check, height_update_mk, balance_factor_mk, Option.bind_eq_bind,
    Option.some_bind, h3, add_comm]
  rw [if_pos (by decide)]
  generalize rebalance _ = o
  cases o <;> rfl

/-- The common tail applied to a node whose right subtree is two higher. -/
theorem update_and_check_right_heavy (l r : NODE) (h v : Int) (log : List Event)
    (hd : node_height r = node_height l + 2) :
    update_and_check (NODE.mk l r h v) log
      = (rebalance (NODE.mk l r (1 + max (node_height l) (node_height r)) v)).map
          (fun t => (t, log ++ [Event.rebalance_call
            (NODE.mk l r (1 + max (node_height l) (node_height r)) v)])) := by
  have h3 : node_height l - node_height r = -2 := by omega
  simp only [update_and_check, height_update_mk, balance_factor_mk, Option.bind_eq_bind,
    Option.some_bind, h3, add_comm]
  rw [if_pos (by decide)]
  generalize rebalance _ = o
  cases o <;> rfl

theorem rebalance_count_append (xs ys : List Event) :
    rebalance_count (xs ++ ys) = rebalance_count xs + rebalance_count ys := by
  induction xs with
  | nil => simp [rebalance_count]
  | cons e es ih =>
    cases e <;> simp [rebalance_count, ih]; omega

theorem bst_order_of_print_eq (s t : NODE)
    (h : avl_print_sorted t = avl_print_sorted s) (hs : bst_order s) : bst_order t := by
  rw [bst_order_iff_sorted] at *
  rw [h]; exact hs

/-- What the common tail of insertion and removal does to a node whose children
are height-correct, balanced trees whose heights differ by at most two. -/
theorem update_and_check_spec (l r : NODE) (h v : Int) (log : List Event)
    (hl : height_correct l) (hr : height_correct r)
    (bl : avl_balance l) (br : avl_balance r)
    (hd : |node_height l - node_height r| ≤ 2) :
    ∃ t log1, update_and_check (NODE.mk l r h v) log = some (t, log1) ∧
      height_correct t ∧ avl_balance t ∧
      avl_print_sorted t = avl_print_sorted l ++ v :: avl_print_sorted r ∧
      balance_factor t ≠ none ∧
      (|node_height l - node_height r| ≤ 1 →
        t = NODE.mk l r (1 + max (node_height l) (node_height r)) v ∧ log1 = log) ∧
      (node_height l = node_height r + 2 →
        log1 = log ++ [Event.rebalance_call
          (NODE.mk l r (1 + max (node_height l) (node_height r)) v)] ∧
        (node_height t = node_height l ∨ node_height t = node_height l + 1) ∧
        (node_height t = node_height l + 1 ↔ balance_factor l = some 0)) ∧
      (node_height r = node_height l + 2 →
        log1 = log ++ [Event.rebalance_call
          (NODE.mk l r (1 + max (node_height l) (node_height r)) v)] ∧
        (node_height t = node_height r ∨ node_height t = node_height r + 1) ∧
        (node_height t = node_height r + 1 ↔ balance_factor r = some 0)) := by
  rw [abs_le] at hd
  have hcases : |node_height l - node_height r| ≤ 1 ∨ node_height l = node_height r + 2
      ∨ node_height r = node_height l + 2 := by
    rw [abs_le]; omega
  rcases hcases with hc | hc | hc
  · refine ⟨_, _, update_and_check_balanced l r h v log hc, ?_, ?_, ?_, ?_, ?_, ?_, ?_⟩
    · exact ⟨rfl, hl, hr⟩
    · exact ⟨hc, bl, br⟩
    · simp [avl_print_sorted]
    · simp
    · intro _; exact ⟨rfl, rfl⟩
    · intro h2; rw [abs_le] at hc; omega
    · intro h2; rw [abs_le] at hc; omega
  · obtain ⟨t, e, h1, h2, h3, h4, h5, h6⟩ :=
      rebalance_left_heavy l r (1 + max (node_height l) (node_height r)) v hl hr bl br hc
    refine ⟨t, log ++ [Event.rebalance_call
      (NODE.mk l r (1 + max (node_height l) (node_height r)) v)], ?_, h1, h2, ?_, h6, ?_, ?_, ?_⟩
    · rw [update_and_check_left_heavy l r h v log hc, e]; rfl
    · rw [h3]; simp [avl_print_sorted]
    · intro h2; rw [abs_le] at h2; omega
    · intro _; exact ⟨rfl, h4, h5⟩
    · intro h2; omega
  · obtain ⟨t, e, h1, h2, h3, h4, h5, h6⟩ :=
      rebalance_right_heavy l r (1 + max (node_height l) (node_height r)) v hl hr bl br hc
    refine ⟨t, log ++ [Event.rebalance_call
      (NODE.mk l r (1 + max (node_height l) (node_height r)) v)], ?_, h1, h2, ?_, h6, ?_, ?_, ?_⟩
    · rw [update_and_check_right_heavy l r h v log hc, e]; rfl
    · rw [h3]; simp [avl_print_sorted]
    · intro h2; rw [abs_le] at h2; omega
    · intro h2; omega
    · intro _; exact ⟨rfl, h4, h5⟩

theorem insert_avl_node_mk_lt (l r : NODE) (h v x : Int) (hx : x < v) :
    insert_avl_node (NODE.mk l r h v) x
      = (insert_avl_node l x).bind (fun res => update_and_check (NODE.mk res.1 r h v) res.2) := by
  simp [insert_avl_node, hx]

theorem insert_avl_node_mk_gt (l r : NODE) (h v x : Int) (hx : v < x) :
    insert_avl_node (NODE.mk l r h v) x
      = (insert_avl_node r x).bind (fun res => update_and_check (NODE.mk l res.1 h v) res.2) := by
  have h1 : ¬ x < v := by omega
  simp [insert_avl_node, hx, h1]

theorem insert_avl_node_mk_eq (l r : NODE) (h v : Int) :
    insert_avl_node (NODE.mk l r h v) v = some (NODE.mk l r h v, [Event.invalid_value]) := by
  simp [insert_avl_node]

theorem insert_avl_node_NULL (x : Int) :
    insert_avl_node NODE.NULL x = some (NODE.mk NODE.NULL NODE.NULL 0 x, []) := by
  simp [insert_avl_node, initialize_node, update_and_check, c_int_mul, int_wrap]

theorem mem_insert_left (A A1 B : List Int) (x v : Int)
    (h : ∀ y, y ∈ A1 ↔ y = x ∨ y ∈ A) (y : Int) :
    y ∈ A1 ++ v :: B ↔ y = x ∨ y ∈ A ++ v :: B := by
  simp only [List.mem_append, List.mem_cons, h]; tauto

theorem mem_insert_right (A B B1 : List Int) (x v : Int)
    (h : ∀ y, y ∈ B1 ↔ y = x ∨ y ∈ B) (y : Int) :
    y ∈ A ++ v :: B1 ↔ y = x ∨ y ∈ A ++ v :: B := by
  simp only [List.mem_append, List.mem_cons, h]; tauto

/-! Height arithmetic of one insertion step: `a`, `b` are the heights of the
children before, `a1` (or `b1`) the height of the child that was inserted into. -/

theorem grow_cases_l (a b a1 : Int) (hb : |a - b| ≤ 1) (h5 : a1 = a ∨ a1 = a + 1) :
    |a1 - b| ≤ 2 ∧ (|a1 - b| ≤ 1 ∨ a1 = b + 2) := by
  rw [abs_le] at *; rw [abs_le]; omega

theorem grow_cases_r (a b b1 : Int) (hb : |a - b| ≤ 1) (h5 : b1 = b ∨ b1 = b + 1) :
    |a - b1| ≤ 2 ∧ (|a - b1| ≤ 1 ∨ b1 = a + 2) := by
  rw [abs_le] at *; rw [abs_le]; omega

theorem grow_bal_l (a b a1 h : Int) (hh : h = 1 + max a b) (hb : |a - b| ≤ 1)
    (h5 : a1 = a ∨ a1 = a + 1) (hc : |a1 - b| ≤ 1) :
    (1 + max a1 b = h ∨ 1 + max a1 b = h + 1) ∧
      (1 + max a1 b = h + 1 → a1 = a + 1 ∧ a1 - b ≠ 0) := by
  rw [abs_le] at *; omega

theorem grow_bal_r (a b b1 h : Int) (hh : h = 1 + max a b) (hb : |a - b| ≤ 1)
    (h5 : b1 = b ∨ b1 = b + 1) (hc : |a - b1| ≤ 1) :
    (1 + max a b1 = h ∨ 1 + max a b1 = h + 1) ∧
      (1 + max a b1 = h + 1 → b1 = b + 1 ∧ a - b1 ≠ 0) := by
  rw [abs_le] at *; omega

theorem grow_heavy_l (a b a1 h : Int) (hh : h = 1 + max a b) (hb : |a - b| ≤ 1)
    (h5 : a1 = a ∨ a1 = a + 1) (gb : -1 ≤ b) (hc : a1 = b + 2) :
    a1 = a + 1 ∧ a ≠ -1 ∧ h = a1 := by
  rw [abs_le] at *; omega

theorem grow_heavy_r (a b b1 h : Int) (hh : h = 1 + max a b) (hb : |a - b| ≤ 1)
    (h5 : b1 = b ∨ b1 = b + 1) (ga : -1 ≤ a) (hc : b1 = a + 2) :
    b1 = b + 1 ∧ b ≠ -1 ∧ h = b1 := by
  rw [abs_le] at *; omega

theorem rebalance_count_snoc (log : List Event) (n : NODE) :
    rebalance_count (log ++ [Event.rebalance_call n]) = rebalance_count log + 1 := by
  rw [rebalance_count_append]; rfl

/-- Insertion into a height-correct, balanced tree: the result exists, keeps the
invariants, stores exactly the old values and the new one, grows by at most
one level, and calls `rebalance` at most once. -/
theorem insert_avl_node_spec (t : NODE) (x : Int)
    (hh : height_correct t) (hb : avl_balance t) :
    ∃ t1 log, insert_avl_node t x = some (t1, log) ∧ height_correct t1 ∧ avl_balance t1 ∧
      (∀ y, y ∈ avl_print_sorted t1 ↔ y = x ∨ y ∈ avl_print_sorted t) ∧
      (bst_order t → bst_order t1) ∧
      (node_height t1 = node_height t ∨ node_height t1 = node_height t + 1) ∧
      (node_height t1 = node_height t + 1 →
        rebalance_count log = 0 ∧ (t = NODE.NULL ∨ balance_factor t1 ≠ some 0)) ∧
      rebalance_count log ≤ 1 ∧ balance_factor t1 ≠ none := by
  induction t with
  | NULL =>
    refine ⟨_, _, insert_avl_node_NULL x, ?_, ?_, ?_, ?_, ?_, ?_, ?_, ?_⟩
    · simp [height_correct]
    · simp [avl_balance]
    · simp [avl_print_sorted]
    · intro _; simp [bst_order, avl_print_sorted]
    · simp
    · intro _; exact ⟨rfl, Or.inl rfl⟩
    · simp [rebalance_count]
    · simp
  | mk l r h v ihl ihr =>
    obtain ⟨hh1, hh2, hh3⟩ := hh
    obtain ⟨hb1, hb2, hb3⟩ := hb
    have gl := node_height_ge l hh2
    have gr := node_height_ge r hh3
    rcases lt_trichotomy x v with hx | hx | hx
    · obtain ⟨l1, logl, e, a1, a2, a3, a4, a5, a6, a7, a8⟩ := ihl hh2 hb2
      obtain ⟨hd, hcases⟩ := grow_cases_l _ _ _ hb1 a5
      obtain ⟨t1, log1, e1, c1, c2, c3, c4, c5, c6, c7⟩ :=
        update_and_check_spec l1 r h v logl a1 hh3 a2 hb3 hd
      have key : (node_height t1 = h ∨ node_height t1 = h + 1) ∧
          (node_height t1 = h + 1 →
            rebalance_count log1 = 0 ∧ balance_factor t1 ≠ some 0) ∧
          rebalance_count log1 ≤ 1 := by
        rcases hcases with hc | hc
        · obtain ⟨rfl, rfl⟩ := c5 hc
          obtain ⟨g1, g2⟩ := grow_bal_l _ _ _ _ hh1 hb1 a5 hc
          refine ⟨g1, fun hg => ?_, a7⟩
          obtain ⟨g3, g4⟩ := g2 hg
          refine ⟨(a6 g3).1, ?_⟩
          simp only [balance_factor_mk, ne_eq, Option.some.injEq]
          exact g4
        · obtain ⟨d1, d2, d3⟩ := c6 hc
          obtain ⟨g1, g2, g3⟩ := grow_heavy_l _ _ _ _ hh1 hb1 a5 gr hc
          have hne : balance_factor l1 ≠ some 0 := by
            rcases (a6 g1).2 with hn | hn
            · rw [hn] at g2; exact absurd rfl g2
            · exact hn
          have ht : node_height t1 = h := by
            rcases d2 with d2 | d2
            · rw [d2, g3]
            · exact absurd (d3.1 d2) hne
          refine ⟨Or.inl ht, fun hg => ?_, ?_⟩
          · rw [ht] at hg; omega
          · rw [d1, rebalance_count_snoc, (a6 g1).1]
      refine ⟨t1, log1, ?_, c1, c2, ?_, ?_, key.1, ?_, key.2.2, c4⟩
      · rw [insert_avl_node_mk_lt _ _ _ _ _ hx, e]; exact e1
      · intro y; rw [c3]; exact mem_insert_left _ _ _ x v a3 y
      · rintro ⟨b1, b2, b3, b4⟩
        apply bst_order_of_print_eq (NODE.mk l1 r h v) t1 (by rw [c3]; rfl)
        refine ⟨fun y hy => ?_, b2, a4 b3, b4⟩
        rcases (a3 y).1 hy with rfl | h2
        · exact hx
        · exact b1 y h2
      · intro hg
        exact ⟨(key.2.1 hg).1, Or.inr (key.2.1 hg).2⟩
    · subst hx
      refine ⟨_, _, insert_avl_node_mk_eq l r h x, ⟨hh1, hh2, hh3⟩, ⟨hb1, hb2, hb3⟩,
        ?_, fun hbst => hbst, Or.inl rfl, ?_, ?_, ?_⟩
      · intro y; simp only [avl_print_sorted, List.mem_append, List.mem_cons]
        constructor
        · exact fun hy => Or.inr hy
        · rintro (rfl | hy)
          · exact Or.inr (Or.inl rfl)
          · exact hy
      · intro hcon; omega
      · simp [rebalance_count]
      · simp
    · obtain ⟨r1, logr, e, a1, a2, a3, a4, a5, a6, a7, a8⟩ := ihr hh3 hb3
      obtain ⟨hd, hcases⟩ := grow_cases_r _ _ _ hb1 a5
      obtain ⟨t1, log1, e1, c1, c2, c3, c4, c5, c6, c7⟩ :=
        update_and_check_spec l r1 h v logr hh2 a1 hb2 a2 hd
      have key : (node_height t1 = h ∨ node_height t1 = h + 1) ∧
          (node_height t1 = h + 1 →
            rebalance_count log1 = 0 ∧ balance_factor t1 ≠ some 0) ∧
          rebalance_count log1 ≤ 1 := by
        rcases hcases with hc | hc
        · obtain ⟨rfl, rfl⟩ := c5 hc
          obtain ⟨g1, g2⟩ := grow_bal_r _ _ _ _ hh1 hb1 a5 hc
          refine ⟨g1, fun hg => ?_, a7⟩
          obtain ⟨g3, g4⟩ := g2 hg
          refine ⟨(a6 g3).1, ?_⟩
          simp only [balance_factor_mk, ne_eq, Option.some.injEq]
          exact g4
        · obtain ⟨d1, d2, d3⟩ := c7 hc
          obtain ⟨g1, g2, g3⟩ := grow_heavy_r _ _ _ _ hh1 hb1 a5 gl hc
          have hne : balance_factor r1 ≠ some 0 := by
            rcases (a6 g1).2 with hn | hn
            · rw [hn] at g2; exact absurd rfl g2
            · exact hn
          have ht : node_height t1 = h := by
            rcases d2 with d2 | d2
            · rw [d2, g3]
            · exact absurd (d3.1 d2) hne
          refine ⟨Or.inl ht, fun hg => ?_, ?_⟩
          · rw [ht] at hg; omega
          · rw [d1, rebalance_count_snoc, (a6 g1).1]
      refine ⟨t1, log1, ?_, c1, c2, ?_, ?_, key.1, ?_, key.2.2, c4⟩
      · rw [insert_avl_node_mk_gt _ _ _ _ _ hx, e]; exact e1
      · intro y; rw [c3]; exact mem_insert_right _ _ _ x v a3 y
      · rintro ⟨b1, b2, b3, b4⟩
        apply bst_order_of_print_eq (NODE.mk l r1 h v) t1 (by rw [c3]; rfl)
        refine ⟨b1, fun y hy => ?_, b3, a4 b4⟩
        rcases (a3 y).1 hy with rfl | h2
        · exact hx
        · exact b2 y h2
      · intro hg
        exact ⟨(key.2.1 hg).1, Or.inr (key.2.1 hg).2⟩

/-! ## Removal -/

theorem remove_tail_mk (l r : NODE) (h v : Int) (log : List Event) :
    remove_tail (NODE.mk l r h v) log = update_and_check (NODE.mk l r h v) log := by
  simp [remove_tail, NODE.is_null]

theorem remove_tail_self (t : NODE) (log : List Event)
    (hh : height_correct t) (hb : avl_balance t) : remove_tail t log = some (t, log) := by
  cases t with
  | NULL => simp [remove_tail, NODE.is_null]
  | mk l r h v =>
    rw [remove_tail_mk, update_and_check_balanced l r h v log hb.1, ← hh.1]

theorem remove_avl_node_mk_lt (l r : NODE) (h v x : Int) (hx : x < v) :
    remove_avl_node (NODE.mk l r h v) x
      = (remove_avl_node l x).bind (fun res => update_and_check (NODE.mk res.1 r h v) res.2) := by
  simp [remove_avl_node, hx, remove_tail_mk]

theorem remove_avl_node_mk_gt (l r : NODE) (h v x : Int) (hx : v < x) :
    remove_avl_node (NODE.mk l r h v) x
      = (remove_avl_node r x).bind (fun res => update_and_check (NODE.mk l res.1 h v) res.2) := by
  have h1 : ¬ x < v := by omega
  simp [remove_avl_node, hx, h1, remove_tail_mk]

theorem remove_avl_node_mk_eq_right_NULL (l : NODE) (h v : Int) :
    remove_avl_node (NODE.mk l NODE.NULL h v) v = remove_tail l [Event.splice_out v] := by
  simp [remove_avl_node, NODE.is_null]

theorem remove_avl_node_mk_eq_left_NULL (rl rr : NODE) (rh rv h v : Int) :
    remove_avl_node (NODE.mk NODE.NULL (NODE.mk rl rr rh rv) h v) v
      = remove_tail (NODE.mk rl rr rh rv) [Event.splice_out v] := by
  simp [remove_avl_node, NODE.is_null]

theorem remove_avl_node_mk_eq_two (ll lr rl rr : NODE) (lh lv rh rv h v : Int) :
    remove_avl_node (NODE.mk (NODE.mk ll lr lh lv) (NODE.mk rl rr rh rv) h v) v
      = (smallest_in_subtree (NODE.mk rl rr rh rv)).bind (fun m =>
          (remove_avl_node (NODE.mk rl rr rh rv) m).bind (fun res =>
            update_and_check (NODE.mk (NODE.mk ll lr lh lv) res.1 h m)
              (Event.two_children v m :: res.2))) := by
  simp [remove_avl_node, NODE.is_null, remove_tail_mk]

/-- On a non-empty BST-ordered tree `smallest_in_subtree` returns the least
stored value. -/
theorem smallest_in_subtree_spec (t : NODE) (hne : t ≠ NODE.NULL) (hbst : bst_order t) :
    ∃ m, smallest_in_subtree t = some m ∧ m ∈ avl_print_sorted t ∧
      ∀ y ∈ avl_print_sorted t, m ≤ y := by
  induction t with
  | NULL => exact absurd rfl hne
  | mk l r h v ihl _ =>
    obtain ⟨b1, b2, b3, b4⟩ := hbst
    cases l with
    | NULL =>
      refine ⟨v, by simp [smallest_in_subtree], by simp [avl_print_sorted], ?_⟩
      intro y hy
      simp only [avl_print_sorted, List.nil_append, List.mem_cons] at hy
      rcases hy with rfl | hy
      · exact le_refl _
      · exact le_of_lt (b2 y hy)
    | mk ll lr lh lv =>
      obtain ⟨m, e, hm, hmin⟩ := ihl (by simp) b3
      refine ⟨m, by simpa [smallest_in_subtree] using e, ?_, ?_⟩
      · simp only [avl_print_sorted, List.mem_append, List.mem_cons] at hm ⊢
        exact Or.inl hm
      · intro y hy
        rw [avl_print_sorted, List.mem_append, List.mem_cons] at hy
        rcases hy with hy | rfl | hy
        · exact hmin y hy
        · exact le_of_lt (b1 m hm)
        · exact le_of_lt (lt_trans (b1 m hm) (b2 y hy))

/-! Height arithmetic of one removal step. -/

theorem shrink_cases_l (a b a1 : Int) (hb : |a - b| ≤ 1) (h5 : a1 = a ∨ a1 = a - 1) :
    |a1 - b| ≤ 2 ∧ (|a1 - b| ≤ 1 ∨ b = a1 + 2) := by
  rw [abs_le] at *; rw [abs_le]; omega

theorem shrink_cases_r (a b b1 : Int) (hb : |a - b| ≤ 1) (h5 : b1 = b ∨ b1 = b - 1) :
    |a - b1| ≤ 2 ∧ (|a - b1| ≤ 1 ∨ a = b1 + 2) := by
  rw [abs_le] at *; rw [abs_le]; omega

theorem shrink_bal_l (a b a1 h : Int) (hh : h = 1 + max a b)
    (h5 : a1 = a ∨ a1 = a - 1) :
    1 + max a1 b = h ∨ 1 + max a1 b = h - 1 := by
  omega

theorem shrink_bal_r (a b b1 h : Int) (hh : h = 1 + max a b)
    (h5 : b1 = b ∨ b1 = b - 1) :
    1 + max a b1 = h ∨ 1 + max a b1 = h - 1 := by
  omega

theorem shrink_heavy_l (a b a1 h T : Int) (hh : h = 1 + max a b) (hb : |a - b| ≤ 1)
    (h5 : a1 = a ∨ a1 = a - 1) (hc : b = a1 + 2) (hT : T = b ∨ T = b + 1) :
    T = h ∨ T = h - 1 := by
  rw [abs_le] at *; omega

theorem shrink_heavy_r (a b b1 h T : Int) (hh : h = 1 + max a b) (hb : |a - b| ≤ 1)
    (h5 : b1 = b ∨ b1 = b - 1) (hc : a = b1 + 2) (hT : T = a ∨ T = a + 1) :
    T = h ∨ T = h - 1 := by
  rw [abs_le] at *; omega

/-- One removal step on the left: the node `mk l1 r h v`, where `l1` is the left
subtree after the recursive call, goes through the common tail. -/
theorem remove_step_left (l l1 r : NODE) (h h0 v : Int) (log : List Event)
    (hh1 : h0 = 1 + max (node_height l) (node_height r))
    (hb1 : |node_height l - node_height r| ≤ 1)
    (a1 : height_correct l1) (hh3 : height_correct r)
    (a2 : avl_balance l1) (hb3 : avl_balance r)
    (a5 : node_height l1 = node_height l ∨ node_height l1 = node_height l - 1) :
    ∃ t1 log1, update_and_check (NODE.mk l1 r h v) log = some (t1, log1) ∧
      height_correct t1 ∧ avl_balance t1 ∧
      avl_print_sorted t1 = avl_print_sorted l1 ++ v :: avl_print_sorted r ∧
      (node_height t1 = h0 ∨ node_height t1 = h0 - 1) := by
  obtain ⟨hd, hcases⟩ := shrink_cases_l _ _ _ hb1 a5
  obtain ⟨t1, log1, e1, c1, c2, c3, c4, c5, c6, c7⟩ :=
    update_and_check_spec l1 r h v log a1 hh3 a2 hb3 hd
  refine ⟨t1, log1, e1, c1, c2, c3, ?_⟩
  rcases hcases with hc | hc
  · obtain ⟨rfl, rfl⟩ := c5 hc
    exact shrink_bal_l _ _ _ _ hh1 a5
  · obtain ⟨-, d2, -⟩ := c7 hc
    exact shrink_heavy_l _ _ _ _ _ hh1 hb1 a5 hc d2

/-- One removal step on the right. -/
theorem remove_step_right (l r r1 : NODE) (h h0 v : Int) (log : List Event)
    (hh1 : h0 = 1 + max (node_height l) (node_height r))
    (hb1 : |node_height l - node_height r| ≤ 1)
    (hh2 : height_correct l) (a1 : height_correct r1)
    (hb2 : avl_balance l) (a2 : avl_balance r1)
    (a5 : node_height r1 = node_height r ∨ node_height r1 = node_height r - 1) :
    ∃ t1 log1, update_and_check (NODE.mk l r1 h v) log = some (t1, log1) ∧
      height_correct t1 ∧ avl_balance t1 ∧
      avl_print_sorted t1 = avl_print_sorted l ++ v :: avl_print_sorted r1 ∧
      (node_height t1 = h0 ∨ node_height t1 = h0 - 1) := by
  obtain ⟨hd, hcases⟩ := shrink_cases_r _ _ _ hb1 a5
  obtain ⟨t1, log1, e1, c1, c2, c3, c4, c5, c6, c7⟩ :=
    update_and_check_spec l r1 h v log hh2 a1 hb2 a2 hd
  refine ⟨t1, log1, e1, c1, c2, c3, ?_⟩
  rcases hcases with hc | hc
  · obtain ⟨rfl, rfl⟩ := c5 hc
    exact shrink_bal_r _ _ _ _ hh1 a5
  · obtain ⟨-, d2, -⟩ := c6 hc
    exact shrink_heavy_r _ _ _ _ _ hh1 hb1 a5 hc d2

theorem mem_remove_left (A A1 B : List Int) (x v : Int)
    (h : ∀ y, y ∈ A1 ↔ y ≠ x ∧ y ∈ A) (hx : x < v) (hB : ∀ y ∈ B, v < y) (y : Int) :
    y ∈ A1 ++ v :: B ↔ y ≠ x ∧ y ∈ A ++ v :: B := by
  have f1 : y = v → y ≠ x := fun e => by omega
  have f2 : y ∈ B → y ≠ x := fun hy => by have := hB y hy; omega
  simp only [List.mem_append, List.mem_cons, h]; tauto

theorem mem_remove_right (A B B1 : List Int) (x v : Int)
    (h : ∀ y, y ∈ B1 ↔ y ≠ x ∧ y ∈ B) (hx : v < x) (hA : ∀ y ∈ A, y < v) (y : Int) :
    y ∈ A ++ v :: B1 ↔ y ≠ x ∧ y ∈ A ++ v :: B := by
  have f1 : y = v → y ≠ x := fun e => by omega
  have f2 : y ∈ A → y ≠ x := fun hy => by have := hA y hy; omega
  simp only [List.mem_append, List.mem_cons, h]; tauto

theorem mem_remove_two (A B B1 : List Int) (v m : Int)
    (h : ∀ y, y ∈ B1 ↔ y ≠ m ∧ y ∈ B) (hm : m ∈ B)
    (hA : ∀ y ∈ A, y < v) (hB : ∀ y ∈ B, v < y) (y : Int) :
    y ∈ A ++ m :: B1 ↔ y ≠ v ∧ y ∈ A ++ v :: B := by
  have f1 : y ∈ A → y ≠ v := fun hy => by have := hA y hy; omega
  have f2 : y ∈ B → y ≠ v := fun hy => by have := hB y hy; omega
  have f3 : y = m → y ∈ B := fun e => e ▸ hm
  simp only [List.mem_append, List.mem_cons, h]; tauto

theorem shrink_leaf (a h : Int) (hh : h = 1 + max a (-1)) (ga : -1 ≤ a) :
    a = h ∨ a = h - 1 := by
  omega

theorem shrink_leaf_r (b h : Int) (hh : h = 1 + max (-1) b) (gb : -1 ≤ b) :
    b = h ∨ b = h - 1 := by
  omega

/-- Removal from a BST-ordered, height-correct, balanced tree: the result exists,
keeps the invariants, stores exactly the old values other than the key, and is
at most one level lower. -/
theorem remove_avl_node_spec (t : NODE) (x : Int)
    (hbst : bst_order t) (hh : height_correct t) (hb : avl_balance t) :
    ∃ t1 log, remove_avl_node t x = some (t1, log) ∧ height_correct t1 ∧ avl_balance t1 ∧
      (∀ y, y ∈ avl_print_sorted t1 ↔ y ≠ x ∧ y ∈ avl_print_sorted t) ∧
      bst_order t1 ∧
      (node_height t1 = node_height t ∨ node_height t1 = node_height t - 1) := by
  induction t generalizing x with
  | NULL =>
    exact ⟨NODE.NULL, [], rfl, trivial, trivial, by simp [avl_print_sorted], trivial, Or.inl rfl⟩
  | mk l r h v ihl ihr =>
    obtain ⟨b1, b2, b3, b4⟩ := hbst
    obtain ⟨hh1, hh2, hh3⟩ := hh
    obtain ⟨hb1, hb2, hb3⟩ := hb
    rcases lt_trichotomy x v with hx | hx | hx
    · obtain ⟨l1, logl, e, a1, a2, a3, a4, a5⟩ := ihl x b3 hh2 hb2
      obtain ⟨t1, log1, e1, c1, c2, c3, c4⟩ :=
        remove_step_left l l1 r h h v logl hh1 hb1 a1 hh3 a2 hb3 a5
      refine ⟨t1, log1, ?_, c1, c2, ?_, ?_, c4⟩
      · rw [remove_avl_node_mk_lt _ _ _ _ _ hx, e]; exact e1
      · intro y; rw [c3]; exact mem_remove_left _ _ _ x v a3 hx b2 y
      · apply bst_order_of_print_eq (NODE.mk l1 r h v) t1 (by rw [c3]; rfl)
        exact ⟨fun y hy => b1 y ((a3 y).1 hy).2, b2, a4, b4⟩
    · subst hx
      cases r with
      | NULL =>
        refine ⟨l, [Event.splice_out x], ?_, hh2, hb2, ?_, b3, ?_⟩
        · rw [remove_avl_node_mk_eq_right_NULL]; exact remove_tail_self l _ hh2 hb2
        · intro y
          simp only [avl_print_sorted, List.mem_append, List.mem_cons, List.not_mem_nil,
            or_false]
          constructor
          · intro hy; exact ⟨ne_of_lt (b1 y hy), Or.inl hy⟩
          · rintro ⟨h1, h2 | h2⟩
            · exact h2
            · exact absurd h2 h1
        · exact shrink_leaf _ _ hh1 (node_height_ge l hh2)
      | mk rl rr rh rv =>
        cases l with
        | NULL =>
          refine ⟨NODE.mk rl rr rh rv, [Event.splice_out x], ?_, hh3, hb3, ?_, b4, ?_⟩
          · rw [remove_avl_node_mk_eq_left_NULL]; exact remove_tail_self _ _ hh3 hb3
          · intro y
            rw [avl_print_sorted.eq_2 NODE.NULL, avl_print_sorted.eq_1, List.nil_append,
              List.mem_cons]
            constructor
            · intro hy; exact ⟨ne_of_gt (b2 y hy), Or.inr hy⟩
            · rintro ⟨h1, h2 | h2⟩
              · exact absurd h2 h1
              · exact h2
          · exact shrink_leaf_r _ _ hh1 (node_height_ge _ hh3)
        | mk ll lr lh lv =>
          obtain ⟨m, em, hm, hmin⟩ := smallest_in_subtree_spec (NODE.mk rl rr rh rv) (by simp) b4
          obtain ⟨r1, logr, e, a1, a2, a3, a4, a5⟩ := ihr m b4 hh3 hb3
          obtain ⟨t1, log1, e1, c1, c2, c3, c4⟩ :=
            remove_step_right (NODE.mk ll lr lh lv) (NODE.mk rl rr rh rv) r1 h h m
              (Event.two_children x m :: logr) hh1 hb1 hh2 a1 hb2 a2 a5
          refine ⟨t1, log1, ?_, c1, c2, ?_, ?_, c4⟩
          · rw [remove_avl_node_mk_eq_two, em, Option.some_bind, e]; exact e1
          · intro y; rw [c3]; exact mem_remove_two _ _ _ x m a3 hm b1 b2 y
          · apply bst_order_of_print_eq (NODE.mk (NODE.mk ll lr lh lv) r1 h m) t1
              (by rw [c3]; rfl)
            refine ⟨fun y hy => lt_trans (b1 y hy) (b2 m hm), fun y hy => ?_, b3, a4⟩
            obtain ⟨h1, h2⟩ := (a3 y).1 hy
            exact lt_of_le_of_ne (hmin y h2) (Ne.symm h1)
    · obtain ⟨r1, logr, e, a1, a2, a3, a4, a5⟩ := ihr x b4 hh3 hb3
      obtain ⟨t1, log1, e1, c1, c2, c3, c4⟩ :=
        remove_step_right l r r1 h h v logr hh1 hb1 hh2 a1 hb2 a2 a5
      refine ⟨t1, log1, ?_, c1, c2, ?_, ?_, c4⟩
      · rw [remove_avl_node_mk_gt _ _ _ _ _ hx, e]; exact e1
      · intro y; rw [c3]; exact mem_remove_right _ _ _ x v a3 hx b1 y
      · apply bst_order_of_print_eq (NODE.mk l r1 h v) t1 (by rw [c3]; rfl)
        exact ⟨b1, fun y hy => b2 y ((a3 y).1 hy).2, b3, a4⟩

/-- Inserting a stored value changes nothing and prints the message. -/
theorem insert_avl_node_duplicate (t : NODE) (x : Int)
    (hbst : bst_order t) (hh : height_correct t) (hb : avl_balance t)
    (hx : x ∈ avl_print_sorted t) :
    insert_avl_node t x = some (t, [Event.invalid_value]) := by
  induction t with
  | NULL => simp [avl_print_sorted] at hx
  | mk l r h v ihl ihr =>
    obtain ⟨b1, b2, b3, b4⟩ := hbst
    obtain ⟨hh1, hh2, hh3⟩ := hh
    obtain ⟨hb1, hb2, hb3⟩ := hb
    rw [avl_print_sorted, List.mem_append, List.mem_cons] at hx
    rcases lt_trichotomy x v with hlt | heq | hgt
    · have hxl : x ∈ avl_print_sorted l := by
        rcases hx with h1 | h1 | h1
        · exact h1
        · omega
        · have := b2 x h1; omega
      rw [insert_avl_node_mk_lt _ _ _ _ _ hlt, ihl b3 hh2 hb2 hxl, Option.some_bind,
        update_and_check_balanced l r h v _ hb1, ← hh1]
    · subst heq; exact insert_avl_node_mk_eq l r h x
    · have hxr : x ∈ avl_print_sorted r := by
        rcases hx with h1 | h1 | h1
        · have := b1 x h1; omega
        · omega
        · exact h1
      rw [insert_avl_node_mk_gt _ _ _ _ _ hgt, ihr b4 hh3 hb3 hxr, Option.some_bind,
        update_and_check_balanced l r h v _ hb1, ← hh1]

/-- Removing a value that is not stored changes nothing. -/
theorem remove_avl_node_absent (t : NODE) (x : Int)
    (hh : height_correct t) (hb : avl_balance t)
    (hx : x ∉ avl_print_sorted t) :
    remove_avl_node t x = some (t, []) := by
  induction t with
  | NULL => rfl
  | mk l r h v ihl ihr =>
    obtain ⟨hh1, hh2, hh3⟩ := hh
    obtain ⟨hb1, hb2, hb3⟩ := hb
    rw [avl_print_sorted, List.mem_append, List.mem_cons] at hx
    push_neg at hx
    obtain ⟨hx1, hx2, hx3⟩ := hx
    rcases lt_trichotomy x v with hlt | heq | hgt
    · rw [remove_avl_node_mk_lt _ _ _ _ _ hlt, ihl hh2 hb2 hx1, Option.some_bind,
        update_and_check_balanced l r h v _ hb1, ← hh1]
    · exact absurd heq hx2
    · rw [remove_avl_node_mk_gt _ _ _ _ _ hgt, ihr hh3 hb3 hx3, Option.some_bind,
        update_and_check_balanced l r h v _ hb1, ← hh1]

/-! ## Lists of insertions and uniqueness of the in-order sequence -/

theorem insert_avl_spec (tree : AVL) (v : Int)
    (hbst : bst_order tree.root) (hh : height_correct tree.root)
    (hb : avl_balance tree.root) :
    ∃ tree1, insert_avl tree v = some tree1 ∧ bst_order tree1.root ∧
      height_correct tree1.root ∧ avl_balance tree1.root ∧
      (∀ y, y ∈ avl_print_sorted tree1.root ↔ y = v ∨ y ∈ avl_print_sorted tree.root) := by
  obtain ⟨t1, log, e, a1, a2, a3, a4, -⟩ := insert_avl_node_spec tree.root v hh hb
  exact ⟨⟨t1⟩, by simp [insert_avl, e], a4 hbst, a1, a2, a3⟩

theorem remove_avl_spec (tree : AVL) (v : Int)
    (hbst : bst_order tree.root) (hh : height_correct tree.root)
    (hb : avl_balance tree.root) :
    ∃ tree1, remove_avl tree v = some tree1 ∧ bst_order tree1.root ∧
      height_correct tree1.root ∧ avl_balance tree1.root ∧
      (∀ y, y ∈ avl_print_sorted tree1.root ↔ y ≠ v ∧ y ∈ avl_print_sorted tree.root) := by
  obtain ⟨t1, log, e, a1, a2, a3, a4, -⟩ := remove_avl_node_spec tree.root v hbst hh hb
  exact ⟨⟨t1⟩, by simp [remove_avl, e], a4, a1, a2, a3⟩

theorem insert_list_spec (vs : List Int) (tree : AVL)
    (hbst : bst_order tree.root) (hh : height_correct tree.root)
    (hb : avl_balance tree.root) :
    ∃ tree1, insert_list tree vs = some tree1 ∧ bst_order tree1.root ∧
      height_correct tree1.root ∧ avl_balance tree1.root ∧
      (∀ y, y ∈ avl_print_sorted tree1.root ↔ y ∈ vs ∨ y ∈ avl_print_sorted tree.root) := by
  induction vs generalizing tree with
  | nil => exact ⟨tree, rfl, hbst, hh, hb, by simp⟩
  | cons v vs ih =>
    obtain ⟨t1, e1, a1, a2, a3, a4⟩ := insert_avl_spec tree v hbst hh hb
    obtain ⟨t2, e2, c1, c2, c3, c4⟩ := ih t1 a1 a2 a3
    refine ⟨t2, by simp [insert_list, e1, e2], c1, c2, c3, ?_⟩
    intro y
    rw [c4, a4, List.mem_cons]
    tauto

theorem nodup_of_ascending (xs : List Int) (h : xs.Pairwise (· < ·)) : xs.Nodup :=
  List.Pairwise.imp (fun hab => ne_of_lt hab) h

/-- Two strictly ascending lists with the same members are equal. -/
theorem ascending_ext (xs ys : List Int) (hx : xs.Pairwise (· < ·))
    (hy : ys.Pairwise (· < ·)) (h : ∀ a, a ∈ xs ↔ a ∈ ys) : xs = ys :=
  List.eq_of_perm_of_sorted
    ((List.perm_ext_iff_of_nodup (nodup_of_ascending xs hx) (nodup_of_ascending ys hy)).2 h)
    hx hy

/-! ## The height bound -/

theorem size_eq_length (t : NODE) : size t = (avl_print_sorted t).length := by
  induction t with
  | NULL => rfl
  | mk l r h v ihl ihr =>
    simp only [size, avl_print_sorted, List.length_append, List.length_cons, ihl, ihr]
    omega

theorem fib_step (ka kb sl sr : Nat) (hd1 : ka ≤ kb + 1) (hd2 : kb ≤ ka + 1)
    (h1 : Nat.fib (ka + 2) ≤ sl + 1) (h2 : Nat.fib (kb + 2) ≤ sr + 1) :
    Nat.fib (max ka kb + 3) ≤ sl + sr + 2 := by
  rcases le_total ka kb with hle | hle
  · rw [max_eq_right hle]
    have e : Nat.fib (kb + 3) = Nat.fib (kb + 1) + Nat.fib (kb + 2) := Nat.fib_add_two
    have m : Nat.fib (kb + 1) ≤ Nat.fib (ka + 2) := Nat.fib_mono (by omega)
    omega
  · rw [max_eq_left hle]
    have e : Nat.fib (ka + 3) = Nat.fib (ka + 1) + Nat.fib (ka + 2) := Nat.fib_add_two
    have m : Nat.fib (ka + 1) ≤ Nat.fib (kb + 2) := Nat.fib_mono (by omega)
    omega

theorem height_index (a b h : Int) (ka kb : Nat) (ea : a + 1 = ka) (eb : b + 1 = kb)
    (hh : h = 1 + max a b) (hb : |a - b| ≤ 1) :
    Int.toNat (a + 3) = ka + 2 ∧ Int.toNat (b + 3) = kb + 2 ∧
      Int.toNat (h + 3) = max ka kb + 3 ∧ ka ≤ kb + 1 ∧ kb ≤ ka + 1 := by
  rw [abs_le] at hb
  omega

/-- A height-correct, balanced tree of cached height `h` has at least
`fib (h + 3) - 1` nodes. -/
theorem fib_le_size (t : NODE) (hh : height_correct t) (hb : avl_balance t) :
    Nat.fib (Int.toNat (node_height t + 3)) ≤ size t + 1 := by
  induction t with
  | NULL => simp [size]
  | mk l r h v ihl ihr =>
    obtain ⟨hh1, hh2, hh3⟩ := hh
    obtain ⟨hb1, hb2, hb3⟩ := hb
    have gl := node_height_ge l hh2
    have gr := node_height_ge r hh3
    obtain ⟨ka, ea⟩ := Int.eq_ofNat_of_zero_le (by omega : 0 ≤ node_height l + 1)
    obtain ⟨kb, eb⟩ := Int.eq_ofNat_of_zero_le (by omega : 0 ≤ node_height r + 1)
    obtain ⟨i1, i2, i3, i4, i5⟩ := height_index _ _ _ ka kb ea eb hh1 hb1
    have h1 := ihl hh2 hb2
    have h2 := ihr hh3 hb3
    rw [i1] at h1
    rw [i2] at h2
    rw [node_height_mk, i3, size]
    exact fib_step ka kb _ _ i4 i5 h1 h2

theorem pow_le_fib (k : Nat) (hk : k ≤ 44) : 2 ^ (25 * k) ≤ (Nat.fib (k + 3) + 1) ^ 36 := by
  interval_cases k <;> norm_num

/-- A duplicate-free list of `int` values has at most `2 ^ 32` entries. -/
theorem length_le_of_item_range (vs : List Int) (hnd : vs.Nodup)
    (hr : ∀ x ∈ vs, item_range x) : vs.length ≤ 4294967296 := by
  have hsub : vs.toFinset ⊆ Finset.Ico (-2147483648 : Int) 2147483648 := by
    intro x hx
    rw [List.mem_toFinset] at hx
    rw [Finset.mem_Ico]
    exact hr x hx
  have hc := Finset.card_le_card hsub
  rw [List.toFinset_card_of_nodup hnd, Int.card_Ico] at hc
  simpa using hc

/-- The integer form of `h ≤ 1.44 * log2 (n + 2)`. -/
theorem real_bound_of_pow (k n : Nat) (h : 2 ^ (25 * k) ≤ (n + 2) ^ 36) :
    (k : ℝ) ≤ 1.44 * Real.logb 2 ((n : ℝ) + 2) := by
  have h1 : ((2 : ℝ) ^ (25 * k)) ≤ ((n : ℝ) + 2) ^ 36 := by exact_mod_cast h
  have hn : (0 : ℝ) < (n : ℝ) + 2 := by
    have : (0 : ℝ) ≤ n := Nat.cast_nonneg n
    linarith
  have h2 : Real.logb 2 ((2 : ℝ) ^ (25 * k)) ≤ Real.logb 2 (((n : ℝ) + 2) ^ 36) :=
    (Real.logb_le_logb (by norm_num) (pow_pos (by norm_num) _) (pow_pos hn _)).2 h1
  rw [Real.logb_pow, Real.logb_pow, Real.logb_self_eq_one (by norm_num)] at h2
  push_cast at h2
  have e : (1.44 : ℝ) = 36 / 25 := by norm_num
  rw [e]
  linarith

theorem height_le_of_size (hgt : Int) (n : Nat) (hg : -1 ≤ hgt)
    (hf : Nat.fib (Int.toNat (hgt + 3)) ≤ n + 1) (hn : n ≤ 4294967296) :
    (hgt : ℝ) ≤ 1.44 * Real.logb 2 ((n : ℝ) + 2) := by
  have hn0 : (0 : ℝ) ≤ n := Nat.cast_nonneg n
  have hlog : (1 : ℝ) ≤ Real.logb 2 ((n : ℝ) + 2) := by
    rw [← Real.logb_self_eq_one (by norm_num : (1 : ℝ) < 2)]
    exact (Real.logb_le_logb (by norm_num) (by norm_num) (by linarith)).2 (by linarith)
  rcases eq_or_lt_of_le hg with e | hpos
  · rw [← e]; push_cast; linarith
  · obtain ⟨j, ej⟩ := Int.eq_ofNat_of_zero_le (by omega : 0 ≤ hgt)
    have e3 : Int.toNat (hgt + 3) = j + 3 := by omega
    rw [e3] at hf
    have hj : j ≤ 44 := by
      by_contra hcon
      have m : Nat.fib 48 ≤ Nat.fib (j + 3) := Nat.fib_mono (by omega)
      have f48 : Nat.fib 48 = 4807526976 := by norm_num
      omega
    have hp : 2 ^ (25 * j) ≤ (n + 2) ^ 36 :=
      le_trans (pow_le_fib j hj) (Nat.pow_le_pow_left (by omega) 36)
    rw [ej]
    exact_mod_cast real_bound_of_pow j n hp

/-! ## The claims -/

/-- C1: `insert_avl` preserves AVL balance.  For every tree that is BST-ordered,
height-correct and AVL-balanced and every value `v`, `insert_avl tree v` returns
a tree, and in it every node has children whose heights differ by at most one. -/
theorem insert_avl_preserves_balance (tree : AVL) (v : Int)
    (hbst : bst_order tree.root) (hh : height_correct tree.root)
    (hb : avl_balance tree.root) :
    ∃ tree1, insert_avl tree v = some tree1 ∧ avl_balance tree1.root := by
  obtain ⟨t1, e, -, -, a, -⟩ := insert_avl_spec tree v hbst hh hb
  exact ⟨t1, e, a⟩

theorem insert_avl_preserves_balance_witness :
    bst_order sample_left_chain.root ∧ height_correct sample_left_chain.root ∧
      avl_balance sample_left_chain.root ∧
      ∃ tree1, insert_avl sample_left_chain 0 = some tree1 ∧ avl_balance tree1.root :=
  ⟨by decide, by decide, by decide,
    insert_avl_preserves_balance sample_left_chain 0 (by decide) (by decide) (by decide)⟩

/-- C2: `remove_avl` preserves AVL balance.  For every tree that is BST-ordered,
height-correct and AVL-balanced and every value `v`, stored or not,
`remove_avl tree v` returns a tree in which every remaining node has children
whose heights differ by at most one. -/
theorem remove_avl_preserves_balance (tree : AVL) (v : Int)
    (hbst : bst_order tree.root) (hh : height_correct tree.root)
    (hb : avl_balance tree.root) :
    ∃ tree1, remove_avl tree v = some tree1 ∧ avl_balance tree1.root := by
  obtain ⟨t1, e, -, -, a, -⟩ := remove_avl_spec tree v hbst hh hb
  exact ⟨t1, e, a⟩

theorem remove_avl_preserves_balance_witness :
    bst_order sample_four.root ∧ height_correct sample_four.root ∧
      avl_balance sample_four.root ∧
      ∃ tree1, remove_avl sample_four 1 = some tree1 ∧ avl_balance tree1.root :=
  ⟨by decide, by decide, by decide,
    remove_avl_preserves_balance sample_four 1 (by decide) (by decide) (by decide)⟩

/-- C3: for every list of integers inserted one by one with `insert_avl` into the
empty tree, the insertions succeed and the in-order sequence of the resulting
tree is strictly ascending and has exactly the members of the list, that is, it
is the list of the distinct values in ascending order; inserting
5, 3, 8, 1, 4, 7, 9 gives 1 3 4 5 7 8 9. -/
theorem insert_list_print_sorted :
    (∀ vs : List Int, ∃ tree, insert_list create_avl vs = some tree ∧
      (avl_print_sorted tree.root).Sorted (· < ·) ∧
      (∀ x, x ∈ avl_print_sorted tree.root ↔ x ∈ vs) ∧
      avl_print_sorted tree.root = vs.toFinset.sort (· ≤ ·)) ∧
    (insert_list create_avl [5, 3, 8, 1, 4, 7, 9]).map (fun t => avl_print_sorted t.root)
      = some [1, 3, 4, 5, 7, 8, 9] := by
  refine ⟨fun vs => ?_, by decide⟩
  obtain ⟨t, e, a1, -, -, a4⟩ :=
    insert_list_spec vs create_avl trivial trivial trivial
  have hs : (avl_print_sorted t.root).Pairwise (· < ·) := (bst_order_iff_sorted _).1 a1
  have hm : ∀ x, x ∈ avl_print_sorted t.root ↔ x ∈ vs := by
    intro x; rw [a4]; simp [create_avl, avl_print_sorted]
  refine ⟨t, e, hs, hm, ?_⟩
  apply ascending_ext _ _ hs
  · exact Finset.sort_sorted_lt _
  · intro a; rw [hm]; simp

/-- C4: for every BST-ordered, height-correct, AVL-balanced tree and every value
`v`, `remove_avl tree v` returns a tree whose in-order sequence is the in-order
sequence before with `v` deleted: `v` is no longer stored, every other stored
value occurs exactly once, the sequence is strictly ascending and the tree is
BST-ordered. -/
theorem remove_avl_print_sorted (tree : AVL) (v : Int)
    (hbst : bst_order tree.root) (hh : height_correct tree.root)
    (hb : avl_balance tree.root) :
    ∃ tree1, remove_avl tree v = some tree1 ∧
      avl_print_sorted tree1.root = (avl_print_sorted tree.root).erase v ∧
      v ∉ avl_print_sorted tree1.root ∧
      (∀ y, y ≠ v → y ∈ avl_print_sorted tree.root →
        (avl_print_sorted tree1.root).count y = 1) ∧
      (avl_print_sorted tree1.root).Sorted (· < ·) ∧ bst_order tree1.root := by
  obtain ⟨t1, e, a1, -, -, a4⟩ := remove_avl_spec tree v hbst hh hb
  have hs0 : (avl_print_sorted tree.root).Pairwise (· < ·) := (bst_order_iff_sorted _).1 hbst
  have hs : (avl_print_sorted t1.root).Pairwise (· < ·) := (bst_order_iff_sorted _).1 a1
  have hnd := nodup_of_ascending _ hs
  refine ⟨t1, e, ?_, ?_, ?_, hs, a1⟩
  · apply ascending_ext _ _ hs (hs0.sublist (List.erase_sublist _ _))
    intro a
    rw [a4, (nodup_of_ascending _ hs0).mem_erase_iff]
  · intro hv; exact ((a4 v).1 hv).1 rfl
  · intro y hy hmem
    exact List.count_eq_one_of_mem hnd ((a4 y).2 ⟨hy, hmem⟩)

theorem remove_avl_print_sorted_witness :
    bst_order sample_four.root ∧ height_correct sample_four.root ∧
      avl_balance sample_four.root ∧
      ∃ tree1, remove_avl sample_four 2 = some tree1 ∧
        avl_print_sorted tree1.root = (avl_print_sorted sample_four.root).erase 2 ∧
        (2 : Int) ∉ avl_print_sorted tree1.root ∧
        (∀ y, y ≠ 2 → y ∈ avl_print_sorted sample_four.root →
          (avl_print_sorted tree1.root).count y = 1) ∧
        (avl_print_sorted tree1.root).Sorted (· < ·) ∧ bst_order tree1.root :=
  ⟨by decide, by decide, by decide,
    remove_avl_print_sorted sample_four 2 (by decide) (by decide) (by decide)⟩

/-- C5: height correctness is preserved by both mutators.  For every
BST-ordered, height-correct, AVL-balanced tree and every value `v`, both
`insert_avl tree v` and `remove_avl tree v` return a tree in which every cached
height is one more than the larger child height, an absent child counting
as `-1`. -/
theorem mutators_preserve_height_correct (tree : AVL) (v : Int)
    (hbst : bst_order tree.root) (hh : height_correct tree.root)
    (hb : avl_balance tree.root) :
    (∃ tree1, insert_avl tree v = some tree1 ∧ height_correct tree1.root) ∧
      (∃ tree2, remove_avl tree v = some tree2 ∧ height_correct tree2.root) := by
  obtain ⟨t1, e1, -, a1, -⟩ := insert_avl_spec tree v hbst hh hb
  obtain ⟨t2, e2, -, a2, -⟩ := remove_avl_spec tree v hbst hh hb
  exact ⟨⟨t1, e1, a1⟩, ⟨t2, e2, a2⟩⟩

theorem mutators_preserve_height_correct_witness :
    bst_order sample_four.root ∧ height_correct sample_four.root ∧
      avl_balance sample_four.root ∧
      (∃ tree1, insert_avl sample_four 1 = some tree1 ∧ height_correct tree1.root) ∧
      (∃ tree2, remove_avl sample_four 1 = some tree2 ∧ height_correct tree2.root) :=
  ⟨by decide, by decide, by decide,
    mutators_preserve_height_correct sample_four 1 (by decide) (by decide) (by decide)⟩

/-- C6: inserting a duplicate is a no-op.  For every BST-ordered, height-correct,
AVL-balanced tree that stores `v`, `insert_avl tree v` returns the very same
tree (shape, values and cached heights), so the in-order sequence is unchanged. -/
theorem insert_avl_duplicate_noop (tree : AVL) (v : Int)
    (hbst : bst_order tree.root) (hh : height_correct tree.root)
    (hb : avl_balance tree.root) (hv : v ∈ avl_print_sorted tree.root) :
    insert_avl tree v = some tree ∧
      ∀ tree1, insert_avl tree v = some tree1 →
        avl_print_sorted tree1.root = avl_print_sorted tree.root := by
  have e : insert_avl tree v = some tree := by
    simp [insert_avl, insert_avl_node_duplicate tree.root v hbst hh hb hv]
  refine ⟨e, fun tree1 h1 => ?_⟩
  rw [e] at h1
  rw [← Option.some.inj h1]

theorem insert_avl_duplicate_noop_witness :
    bst_order sample_four.root ∧ height_correct sample_four.root ∧
      avl_balance sample_four.root ∧ (3 : Int) ∈ avl_print_sorted sample_four.root ∧
      insert_avl sample_four 3 = some sample_four ∧
      ∀ tree1, insert_avl sample_four 3 = some tree1 →
        avl_print_sorted tree1.root = avl_print_sorted sample_four.root :=
  ⟨by decide, by decide, by decide, by decide,
    insert_avl_duplicate_noop sample_four 3 (by decide) (by decide) (by decide) (by decide)⟩

/-- C7: removing an absent value is a no-op.  For every BST-ordered,
height-correct, AVL-balanced tree that does not store `v`, `remove_avl tree v`
returns the very same tree (shape, values and cached heights), so the in-order
sequence is unchanged. -/
theorem remove_avl_absent_noop (tree : AVL) (v : Int)
    (_hbst : bst_order tree.root) (hh : height_correct tree.root)
    (hb : avl_balance tree.root) (hv : v ∉ avl_print_sorted tree.root) :
    remove_avl tree v = some tree ∧
      ∀ tree1, remove_avl tree v = some tree1 →
        avl_print_sorted tree1.root = avl_print_sorted tree.root := by
  have e : remove_avl tree v = some tree := by
    simp [remove_avl, remove_avl_node_absent tree.root v hh hb hv]
  refine ⟨e, fun tree1 h1 => ?_⟩
  rw [e] at h1
  rw [← Option.some.inj h1]

theorem remove_avl_absent_noop_witness :
    bst_order sample_four.root ∧ height_correct sample_four.root ∧
      avl_balance sample_four.root ∧ (5 : Int) ∉ avl_print_sorted sample_four.root ∧
      remove_avl sample_four 5 = some sample_four ∧
      ∀ tree1, remove_avl sample_four 5 = some tree1 →
        avl_print_sorted tree1.root = avl_print_sorted sample_four.root :=
  ⟨by decide, by decide, by decide, by decide,
    remove_avl_absent_noop sample_four 5 (by decide) (by decide) (by decide) (by decide)⟩

/-- C8: inserting 5, 3, 8, 1, 4, 7, 9 into the empty tree gives a tree with 5 at
the root whose right subtree has minimum 7; `remove_avl` with 5 then yields a
tree whose in-order sequence is 1 3 4 7 8 9, which is AVL-balanced, and whose
root holds 7. -/
theorem remove_two_children_example :
    ∃ built result, insert_list create_avl [5, 3, 8, 1, 4, 7, 9] = some built ∧
      root_value built.root = some 5 ∧
      built.root.right_link.bind smallest_in_subtree = some 7 ∧
      remove_avl built 5 = some result ∧
      avl_print_sorted result.root = [1, 3, 4, 7, 8, 9] ∧
      avl_balance result.root ∧
      root_value result.root = some 7 := by
  refine ⟨_, _, rfl, ?_, ?_, rfl, ?_, ?_, ?_⟩ <;> decide

/-- C9: the height bound.  A height-correct, AVL-balanced tree of cached height
`h` (a single node has height 0, the empty tree `-1`) has at least
`fib (h + 3) - 1` nodes; and inserting `n` distinct `int` values into the empty
tree with `insert_avl` gives a tree of `n` nodes whose root height `h` satisfies
`h ≤ 1.44 * log2 (n + 2)`. -/
theorem avl_height_bound (t : NODE) (vs : List Int)
    (hh : height_correct t) (hb : avl_balance t)
    (hnd : vs.Nodup) (hr : ∀ x ∈ vs, item_range x) :
    Nat.fib (Int.toNat (node_height t + 3)) - 1 ≤ size t ∧
      ∃ tree, insert_list create_avl vs = some tree ∧ size tree.root = vs.length ∧
        (node_height tree.root : ℝ) ≤ 1.44 * Real.logb 2 ((vs.length : ℝ) + 2) := by
  refine ⟨Nat.sub_le_of_le_add (fib_le_size t hh hb), ?_⟩
  obtain ⟨tree, e, a1, a2, a3, a4⟩ := insert_list_spec vs create_avl trivial trivial trivial
  have hs : (avl_print_sorted tree.root).Pairwise (· < ·) := (bst_order_iff_sorted _).1 a1
  have hperm : (avl_print_sorted tree.root).Perm vs :=
    (List.perm_ext_iff_of_nodup (nodup_of_ascending _ hs) hnd).2
      (fun a => by rw [a4]; simp [create_avl, avl_print_sorted])
  have hsize : size tree.root = vs.length := by
    rw [size_eq_length, hperm.length_eq]
  refine ⟨tree, e, hsize, ?_⟩
  have hf := fib_le_size tree.root a2 a3
  rw [hsize] at hf
  exact height_le_of_size _ _ (node_height_ge _ a2) hf (length_le_of_item_range vs hnd hr)

theorem avl_height_bound_witness :
    height_correct sample_four.root ∧ avl_balance sample_four.root ∧
      [5, 3, 8, 1, 4, 7, 9].Nodup ∧ (∀ x ∈ [5, 3, 8, 1, 4, 7, 9], item_range x) ∧
      Nat.fib (Int.toNat (node_height sample_four.root + 3)) - 1 ≤ size sample_four.root ∧
      ∃ tree, insert_list create_avl [5, 3, 8, 1, 4, 7, 9] = some tree ∧
        size tree.root = [5, 3, 8, 1, 4, 7, 9].length ∧
        (node_height tree.root : ℝ)
          ≤ 1.44 * Real.logb 2 ((([5, 3, 8, 1, 4, 7, 9] : List Int).length : ℝ) + 2) :=
  ⟨by decide, by decide, by decide, by decide,
    avl_height_bound sample_four.root [5, 3, 8, 1, 4, 7, 9]
      (by decide) (by decide) (by decide) (by decide)⟩

/-- C10: at most one rebalancing step per insertion.  For every BST-ordered,
height-correct, AVL-balanced tree and every value `v`, `insert_avl_node` returns,
and the trace of the run records at most one call of `rebalance`. -/
theorem insert_rebalances_at_most_once (tree : AVL) (v : Int)
    (_hbst : bst_order tree.root) (hh : height_correct tree.root)
    (hb : avl_balance tree.root) :
    ∃ root1 log, insert_avl_node tree.root v = some (root1, log) ∧
      insert_avl tree v = some ⟨root1⟩ ∧ rebalance_count log ≤ 1 := by
  obtain ⟨t1, log, e, -, -, -, -, -, -, a, -⟩ := insert_avl_node_spec tree.root v hh hb
  exact ⟨t1, log, e, by simp [insert_avl, e], a⟩

theorem insert_rebalances_at_most_once_witness :
    bst_order sample_left_chain.root ∧ height_correct sample_left_chain.root ∧
      avl_balance sample_left_chain.root ∧
      ∃ root1 log, insert_avl_node sample_left_chain.root 0 = some (root1, log) ∧
        insert_avl sample_left_chain 0 = some ⟨root1⟩ ∧ rebalance_count log ≤ 1 :=
  ⟨by decide, by decide, by decide,
    insert_rebalances_at_most_once sample_left_chain 0 (by decide) (by decide) (by decide)⟩

/-! ## Rebalancing needs only correct cached heights -/

theorem sq_gt_two_iff (b : Int) : b * b > 2 ↔ b ≤ -2 ∨ 2 ≤ b := by
  constructor
  · intro h
    by_contra hcon
    have h1 : -1 ≤ b ∧ b ≤ 1 := by omega
    obtain ⟨h2, h3⟩ := h1
    interval_cases b <;> simp at h
  · rintro (h | h) <;> nlinarith

theorem int_wrap_of_item_range (x : Int) (h : item_range x) : int_wrap x = x := by
  obtain ⟨h1, h2⟩ := h
  unfold int_wrap
  omega

/-- The 32-bit square of a balance factor of magnitude at most 46340 is the
exact square. -/
theorem c_int_mul_self_exact (b : Int) (hb : |b| ≤ 46340) :
    item_range (b * b) ∧ c_int_mul b b = b * b := by
  rw [abs_le] at hb
  have hr : item_range (b * b) := by constructor <;> nlinarith
  exact ⟨hr, int_wrap_of_item_range _ hr⟩

/-- Whenever the 32-bit test succeeds, the balance factor is at least two in
magnitude. -/
theorem c_int_mul_gt_two (b : Int) (h : c_int_mul b b > 2) : b * b > 2 := by
  by_contra hcon
  have h1 : -1 ≤ b ∧ b ≤ 1 := by
    have := (sq_gt_two_iff b).not.1 hcon
    omega
  obtain ⟨h2, h3⟩ := h1
  interval_cases b <;> revert h <;> decide

/-- The bound 46340 is the largest possible: at 46341 the 32-bit square is negative. -/
theorem c_int_mul_self_overflows : c_int_mul 46341 46341 < 0 := by decide

/-- The rotation that `rebalance` performs on a node that is at least two too
high on the left, whose left child is not right-heavy. -/
theorem rebalance_eq_right_rotate (ll lr r : NODE) (lh lv h v : Int)
    (hb : 0 ≤ lh - node_height r) (hbl : ¬ node_height ll - node_height lr < 0) :
    rebalance (NODE.mk (NODE.mk ll lr lh lv) r h v)
      = some (NODE.mk ll (NODE.mk lr r (max (node_height lr) (node_height r) + 1) v)
          (max (node_height ll) (max (node_height lr) (node_height r) + 1) + 1) lv) := by
  simp [rebalance, right_rotate, hbl, hb]

theorem rebalance_eq_left_right_rotate (ll lrl lrr r : NODE) (lh lv lrh lrv h v : Int)
    (hb : 0 ≤ lh - node_height r) (hbl : node_height ll - lrh < 0) :
    rebalance (NODE.mk (NODE.mk ll (NODE.mk lrl lrr lrh lrv) lh lv) r h v)
      = some (NODE.mk (NODE.mk ll lrl (max (node_height ll) (node_height lrl) + 1) lv)
          (NODE.mk lrr r (max (node_height lrr) (node_height r) + 1) v)
          (max (max (node_height ll) (node_height lrl) + 1)
            (max (node_height lrr) (node_height r) + 1) + 1) lrv) := by
  simp [rebalance, left_right_rotate, left_rotate, right_rotate, hbl, hb]

theorem rebalance_eq_left_rotate (l rl rr : NODE) (rh rv h v : Int)
    (hb : node_height l - rh < 0) (hbr : ¬ node_height rl - node_height rr > 0) :
    rebalance (NODE.mk l (NODE.mk rl rr rh rv) h v)
      = some (NODE.mk (NODE.mk l rl (max (node_height l) (node_height rl) + 1) v) rr
          (max (max (node_height l) (node_height rl) + 1) (node_height rr) + 1) rv) := by
  have hb2 : ¬ (node_height l - rh ≥ 0) := by omega
  have hbr2 : node_height rl ≤ node_height rr := by omega
  simp [rebalance, left_rotate, hb, hb2, hbr2]

theorem rebalance_eq_right_left_rotate (l rll rlr rr : NODE) (rh rv rlh rlv h v : Int)
    (hb : node_height l - rh < 0) (hbr : rlh - node_height rr > 0) :
    rebalance (NODE.mk l (NODE.mk (NODE.mk rll rlr rlh rlv) rr rh rv) h v)
      = some (NODE.mk (NODE.mk l rll (max (node_height l) (node_height rll) + 1) v)
          (NODE.mk rlr rr (max (node_height rlr) (node_height rr) + 1) rv)
          (max (max (node_height l) (node_height rll) + 1)
            (max (node_height rlr) (node_height rr) + 1) + 1) rlv) := by
  have hb2 : ¬ (node_height l - rh ≥ 0) := by omega
  simp [rebalance, right_left_rotate, left_rotate, right_rotate, hb, hb2, hbr]

theorem height_correct_mk_update (l r : NODE) (v : Int)
    (hl : height_correct l) (hr : height_correct r) :
    height_correct (NODE.mk l r (max (node_height l) (node_height r) + 1) v) :=
  ⟨by omega, hl, hr⟩

/-- Under its guard `rebalance` finds every child it dereferences, provided the
cached heights of the two subtrees are correct; the result is height-correct
and has the same in-order sequence. -/
theorem rebalance_safe (l r : NODE) (h v : Int)
    (hl : height_correct l) (hr : height_correct r)
    (hg : (node_height l - node_height r) * (node_height l - node_height r) > 2) :
    ∃ t, rebalance (NODE.mk l r h v) = some t ∧ height_correct t ∧
      avl_print_sorted t = avl_print_sorted l ++ v :: avl_print_sorted r ∧
      t.is_null = false := by
  have gl := node_height_ge l hl
  have gr := node_height_ge r hr
  rcases (sq_gt_two_iff _).1 hg with hneg | hpos
  · cases r with
    | NULL => simp at hneg; omega
    | mk rl rr rh rv =>
      obtain ⟨hr1, hr2, hr3⟩ := hr
      have grl := node_height_ge rl hr2
      simp only [node_height_mk] at hneg
      by_cases hbr : node_height rl - node_height rr > 0
      · cases rl with
        | NULL => simp at hbr; have := node_height_ge rr hr3; omega
        | mk rll rlr rlh rlv =>
          obtain ⟨hrl1, hrl2, hrl3⟩ := hr2
          refine ⟨_, rebalance_eq_right_left_rotate l rll rlr rr rh rv rlh rlv h v (by omega)
            (by simpa using hbr), ?_, ?_, rfl⟩
          · exact height_correct_mk_update _ _ _ (height_correct_mk_update _ _ _ hl hrl2)
              (height_correct_mk_update _ _ _ hrl3 hr3)
          · simp [avl_print_sorted]
      · refine ⟨_, rebalance_eq_left_rotate l rl rr rh rv h v (by omega) hbr, ?_, ?_, rfl⟩
        · exact height_correct_mk_update _ _ _ (height_correct_mk_update _ _ _ hl hr2) hr3
        · simp [avl_print_sorted]
  · cases l with
    | NULL => simp at hpos; omega
    | mk ll lr lh lv =>
      obtain ⟨hl1, hl2, hl3⟩ := hl
      simp only [node_height_mk] at hpos
      by_cases hbl : node_height ll - node_height lr < 0
      · cases lr with
        | NULL => simp at hbl; have := node_height_ge ll hl2; omega
        | mk lrl lrr lrh lrv =>
          obtain ⟨hlr1, hlr2, hlr3⟩ := hl3
          refine ⟨_, rebalance_eq_left_right_rotate ll lrl lrr r lh lv lrh lrv h v (by omega)
            (by simpa using hbl), ?_, ?_, rfl⟩
          · exact height_correct_mk_update _ _ _ (height_correct_mk_update _ _ _ hl2 hlr2)
              (height_correct_mk_update _ _ _ hlr3 hr)
          · simp [avl_print_sorted]
      · refine ⟨_, rebalance_eq_right_rotate ll lr r lh lv h v (by omega) hbl, ?_, ?_, rfl⟩
        · exact height_correct_mk_update _ _ _ hl2 (height_correct_mk_update _ _ _ hl3 hr)
        · simp [avl_print_sorted]

/-- The common tail returns on every node whose subtrees are height-correct. -/
theorem update_and_check_total (l r : NODE) (h v : Int) (log : List Event)
    (hl : height_correct l) (hr : height_correct r) :
    ∃ t log1, update_and_check (NODE.mk l r h v) log = some (t, log1) ∧ height_correct t ∧
      avl_print_sorted t = avl_print_sorted l ++ v :: avl_print_sorted r ∧
      t.is_null = false ∧
      (log1 = log ∨ ∃ a, log1 = log ++ [Event.rebalance_call a]) := by
  by_cases hg : c_int_mul (node_height l - node_height r) (node_height l - node_height r) > 2
  · obtain ⟨t, e, h1, h2, h3⟩ :=
      rebalance_safe l r (max (node_height l) (node_height r) + 1) v hl hr
        (c_int_mul_gt_two _ hg)
    refine ⟨t, log ++ [Event.rebalance_call
      (NODE.mk l r (max (node_height l) (node_height r) + 1) v)], ?_, h1, h2, h3,
      Or.inr ⟨_, rfl⟩⟩
    simp only [update_and_check, height_update_mk, balance_factor_mk, Option.bind_eq_bind,
      Option.some_bind, hg, if_true, e]
  · refine ⟨_, log, ?_, height_correct_mk_update l r v hl hr, rfl, rfl, Or.inl rfl⟩
    simp only [update_and_check, height_update_mk, balance_factor_mk, Option.bind_eq_bind,
      Option.some_bind, hg, if_false]

/-! ## Claims on nodes, rotations and the rebalance rule -/

/-- C11 (as amended): for every value `v`, the node that `initialize_node`
creates has absent left and right children, whatever its unset height field
holds; the height update that follows in `insert_avl_node` sets its height to
`0`, so inserting `v` at an absent position, in particular into the empty tree,
gives a single node without children and with height `0`. -/
theorem fresh_node_height_zero (v junk : Int) :
    (initialize_node v junk).left_link = some NODE.NULL ∧
      (initialize_node v junk).right_link = some NODE.NULL ∧
      height_update (initialize_node v junk) = some (NODE.mk NODE.NULL NODE.NULL 0 v) ∧
      insert_avl_node NODE.NULL v = some (NODE.mk NODE.NULL NODE.NULL 0 v, []) ∧
      insert_avl create_avl v = some ⟨NODE.mk NODE.NULL NODE.NULL 0 v⟩ := by
  refine ⟨rfl, rfl, by simp [initialize_node], insert_avl_node_NULL v, ?_⟩
  simp [insert_avl, create_avl, insert_avl_node_NULL]

/-- C11, counterexample: inserting `7` into the empty tree does not give a node
without children and with height `1`; the height of the node is `0`. -/
theorem fresh_node_height_not_one :
    (¬ ∃ tree, insert_avl create_avl 7 = some tree ∧
        tree.root.left_link = some NODE.NULL ∧ tree.root.right_link = some NODE.NULL ∧
        node_height tree.root = 1) ∧
      (insert_avl create_avl 7).map (fun tree => node_height tree.root) = some 0 := by
  refine ⟨?_, by decide⟩
  rintro ⟨tree, e, -, -, h1⟩
  have e2 : insert_avl create_avl 7 = some ⟨NODE.mk NODE.NULL NODE.NULL 0 7⟩ := by decide
  rw [e2] at e
  rw [← Option.some.inj e] at h1
  simp at h1

/-- C13: rotations preserve order and promote the child.  For every node `a`
with a present right child `b`, `left_rotate a` returns the tree rooted at `b`
whose left child is `a` with the former left subtree of `b` as its right
subtree; its in-order sequence is that of `a`, so BST order is preserved.
Symmetrically for `right_rotate` and a present left child. -/
theorem rotations_preserve_order (x y z : NODE) (ah av bh bv : Int) :
    (∃ t, left_rotate (NODE.mk x (NODE.mk y z bh bv) ah av) = some t ∧
      root_value t = some bv ∧
      t = NODE.mk (NODE.mk x y (max (node_height x) (node_height y) + 1) av) z
        (max (max (node_height x) (node_height y) + 1) (node_height z) + 1) bv ∧
      avl_print_sorted t = avl_print_sorted (NODE.mk x (NODE.mk y z bh bv) ah av) ∧
      (bst_order (NODE.mk x (NODE.mk y z bh bv) ah av) → bst_order t)) ∧
    (∃ t, right_rotate (NODE.mk (NODE.mk x y bh bv) z ah av) = some t ∧
      root_value t = some bv ∧
      t = NODE.mk x (NODE.mk y z (max (node_height y) (node_height z) + 1) av)
        (max (node_height x) (max (node_height y) (node_height z) + 1) + 1) bv ∧
      avl_print_sorted t = avl_print_sorted (NODE.mk (NODE.mk x y bh bv) z ah av) ∧
      (bst_order (NODE.mk (NODE.mk x y bh bv) z ah av) → bst_order t)) := by
  constructor
  · have e : avl_print_sorted
        (NODE.mk (NODE.mk x y (max (node_height x) (node_height y) + 1) av) z
          (max (max (node_height x) (node_height y) + 1) (node_height z) + 1) bv)
        = avl_print_sorted (NODE.mk x (NODE.mk y z bh bv) ah av) := by
      simp [avl_print_sorted]
    exact ⟨NODE.mk (NODE.mk x y (max (node_height x) (node_height y) + 1) av) z
      (max (max (node_height x) (node_height y) + 1) (node_height z) + 1) bv,
      by simp [left_rotate], rfl, rfl, e, bst_order_of_print_eq _ _ e⟩
  · have e : avl_print_sorted
        (NODE.mk x (NODE.mk y z (max (node_height y) (node_height z) + 1) av)
          (max (node_height x) (max (node_height y) (node_height z) + 1) + 1) bv)
        = avl_print_sorted (NODE.mk (NODE.mk x y bh bv) z ah av) := by
      simp [avl_print_sorted]
    exact ⟨NODE.mk x (NODE.mk y z (max (node_height y) (node_height z) + 1) av)
      (max (node_height x) (max (node_height y) (node_height z) + 1) + 1) bv,
      by simp [right_rotate], rfl, rfl, e, bst_order_of_print_eq _ _ e⟩

/-- C14: the rebalance rule repairs a node that is off by two.  For every node
whose two subtrees are height-correct and AVL-balanced, whose own cached height
is correct and whose balance factor is `2` or `-2`, `rebalance` returns a tree
that is AVL-balanced and height-correct at every node and has the same in-order
sequence; when the taller child has balance factor `0` the rotation chosen is
the single one. -/
theorem rebalance_repairs (l r : NODE) (h v : Int)
    (hl : height_correct l) (hr : height_correct r)
    (bl : avl_balance l) (br : avl_balance r)
    (_hh : h = 1 + max (node_height l) (node_height r))
    (hbf : balance_factor (NODE.mk l r h v) = some 2 ∨
      balance_factor (NODE.mk l r h v) = some (-2)) :
    (∃ t, rebalance (NODE.mk l r h v) = some t ∧ avl_balance t ∧ height_correct t ∧
      avl_print_sorted t = avl_print_sorted (NODE.mk l r h v)) ∧
    (balance_factor (NODE.mk l r h v) = some 2 → balance_factor l = some 0 →
      rebalance (NODE.mk l r h v) = right_rotate (NODE.mk l r h v)) ∧
    (balance_factor (NODE.mk l r h v) = some (-2) → balance_factor r = some 0 →
      rebalance (NODE.mk l r h v) = left_rotate (NODE.mk l r h v)) := by
  simp only [balance_factor_mk, Option.some.injEq] at hbf ⊢
  refine ⟨?_, ?_, ?_⟩
  · rcases hbf with h2 | h2
    · obtain ⟨t, e, a1, a2, a3, -⟩ := rebalance_left_heavy l r h v hl hr bl br (by omega)
      exact ⟨t, e, a2, a1, a3⟩
    · obtain ⟨t, e, a1, a2, a3, -⟩ := rebalance_right_heavy l r h v hl hr bl br (by omega)
      exact ⟨t, e, a2, a1, a3⟩
  · intro h2 h0
    simp [rebalance, h2, h0]
  · intro h2 h0
    simp [rebalance, h2, h0]

theorem rebalance_repairs_witness :
    height_correct (NODE.mk (leaf 1) (leaf 3) 1 2) ∧ height_correct NODE.NULL ∧
      avl_balance (NODE.mk (leaf 1) (leaf 3) 1 2) ∧ avl_balance NODE.NULL ∧
      balance_factor sample_even_child = some 2 ∧
      balance_factor (NODE.mk (leaf 1) (leaf 3) 1 2) = some 0 ∧
      (∃ t, rebalance sample_even_child = some t ∧ avl_balance t ∧ height_correct t ∧
        avl_print_sorted t = avl_print_sorted sample_even_child) ∧
      rebalance sample_even_child = right_rotate sample_even_child :=
  have key := rebalance_repairs (NODE.mk (leaf 1) (leaf 3) 1 2) NODE.NULL 2 4
    (by decide) (by decide) (by decide) (by decide) (by decide) (Or.inl (by decide))
  ⟨by decide, by decide, by decide, by decide, by decide, by decide, key.1,
    key.2.1 (by decide) (by decide)⟩

/-- The cached height of a valid tree over `int` values is at most 44. -/
theorem node_height_le_of_item_range (t : NODE) (hbst : bst_order t)
    (hh : height_correct t) (hb : avl_balance t)
    (hr : ∀ x ∈ avl_print_sorted t, item_range x) : node_height t ≤ 44 := by
  have hs : (avl_print_sorted t).Pairwise (· < ·) := (bst_order_iff_sorted _).1 hbst
  have hn := length_le_of_item_range _ (nodup_of_ascending _ hs) hr
  have hf := fib_le_size t hh hb
  rw [size_eq_length] at hf
  have hg := node_height_ge t hh
  by_contra hcon
  have m : Nat.fib 48 ≤ Nat.fib (Int.toNat (node_height t + 3)) := Nat.fib_mono (by omega)
  have f48 : Nat.fib 48 = 4807526976 := by norm_num
  omega

/-- Every balance factor computed at a node whose two subtrees are valid trees
over `int` values has magnitude at most 45, far inside the range in which the
32-bit square is exact. -/
theorem balance_factor_in_exact_range (l r : NODE) (h v b : Int)
    (hbl : bst_order l) (hhl : height_correct l) (hal : avl_balance l)
    (hrl : ∀ x ∈ avl_print_sorted l, item_range x)
    (hbr : bst_order r) (hhr : height_correct r) (har : avl_balance r)
    (hrr : ∀ x ∈ avl_print_sorted r, item_range x)
    (hb : balance_factor (NODE.mk l r h v) = some b) : |b| ≤ 45 := by
  have h1 := node_height_le_of_item_range l hbl hhl hal hrl
  have h2 := node_height_le_of_item_range r hbr hhr har hrr
  have h3 := node_height_ge l hhl
  have h4 := node_height_ge r hhr
  simp only [balance_factor_mk, Option.some.injEq] at hb
  rw [abs_le]; omega

/-- C15: the unbalance test is the range check.  For every balance factor `b`
that `balance_factor` computes with `|b| ≤ 46340` (on the trees the program
builds `|b| ≤ 45`), the 32-bit product `b * b` is the exact square, the
condition `b * b > 2` holds exactly when `|b| > 1`, that is, exactly when `b`
lies outside `[-1, 1]`, and the common tail of `insert_avl_node` and
`remove_avl_node` calls `rebalance` exactly then. -/
theorem unbalance_test_iff (node : NODE) (b : Int) (hb : balance_factor node = some b)
    (hr : |b| ≤ 46340) :
    c_int_mul b b = b * b ∧ (c_int_mul b b > 2 ↔ |b| > 1) ∧
      (|b| > 1 ↔ ¬ (-1 ≤ b ∧ b ≤ 1)) ∧
      ∀ l r h v log, node = NODE.mk l r h v →
        (¬ |b| > 1 → update_and_check node log
          = some (NODE.mk l r (max (node_height l) (node_height r) + 1) v, log)) ∧
        (|b| > 1 → update_and_check node log
          = (rebalance (NODE.mk l r (max (node_height l) (node_height r) + 1) v)).map
              (fun t => (t, log ++ [Event.rebalance_call
                (NODE.mk l r (max (node_height l) (node_height r) + 1) v)]))) := by
  have hx := (c_int_mul_self_exact b hr).2
  have h1 : |b| > 1 ↔ b ≤ -2 ∨ 2 ≤ b := by
    rw [gt_iff_lt, lt_abs]; omega
  have h0 : c_int_mul b b > 2 ↔ |b| > 1 := by rw [hx, h1]; exact sq_gt_two_iff b
  refine ⟨hx, h0, by rw [h1]; omega, ?_⟩
  intro l r h v log e
  subst e
  simp only [balance_factor_mk, Option.some.injEq] at hb
  rw [← h0]
  constructor
  · intro hn
    simp only [update_and_check, height_update_mk, balance_factor_mk, Option.bind_eq_bind,
      Option.some_bind, hb, hn, if_false]
  · intro hp
    simp only [update_and_check, height_update_mk, balance_factor_mk, Option.bind_eq_bind,
      Option.some_bind, hb, hp, if_true]
    generalize rebalance _ = o
    cases o <;> rfl

theorem unbalance_test_iff_witness :
    balance_factor sample_even_child = some 2 ∧ |(2 : Int)| ≤ 46340 ∧
      (c_int_mul 2 2 = 2 * 2 ∧ (c_int_mul 2 2 > 2 ↔ |(2 : Int)| > 1) ∧
      (|(2 : Int)| > 1 ↔ ¬ (-1 ≤ (2 : Int) ∧ (2 : Int) ≤ 1)) ∧
      ∀ l r h v log, sample_even_child = NODE.mk l r h v →
        (¬ |(2 : Int)| > 1 → update_and_check sample_even_child log
          = some (NODE.mk l r (max (node_height l) (node_height r) + 1) v, log)) ∧
        (|(2 : Int)| > 1 → update_and_check sample_even_child log
          = (rebalance (NODE.mk l r (max (node_height l) (node_height r) + 1) v)).map
              (fun t => (t, log ++ [Event.rebalance_call
                (NODE.mk l r (max (node_height l) (node_height r) + 1) v)])))) :=
  ⟨by decide, by decide, unbalance_test_iff sample_even_child 2 (by decide) (by decide)⟩

/-- C19: `rebalance` never dereferences an absent child under its guard.  For
every node whose subtrees have correct cached heights and whose balance factor
`b` satisfies `b * b > 2`: if `b ≥ 0` the left child is present and, when its
balance factor is negative, so is the right child of the left child; if `b < 0`
the right child is present and, when its balance factor is positive, so is the
left child of the right child; and `rebalance` returns a tree. -/
theorem rebalance_children_present (l r : NODE) (h v b : Int)
    (hl : height_correct l) (hr : height_correct r)
    (hb : balance_factor (NODE.mk l r h v) = some b) (hg : b * b > 2) :
    (b ≥ 0 → l.is_null = false ∧
      ∀ c, balance_factor l = some c → c < 0 →
        ∃ lr, l.right_link = some lr ∧ lr.is_null = false) ∧
    (b < 0 → r.is_null = false ∧
      ∀ c, balance_factor r = some c → c > 0 →
        ∃ rl, r.left_link = some rl ∧ rl.is_null = false) ∧
    ∃ t, rebalance (NODE.mk l r h v) = some t := by
  simp only [balance_factor_mk, Option.some.injEq] at hb
  subst hb
  have gl := node_height_ge l hl
  have gr := node_height_ge r hr
  have hc := (sq_gt_two_iff _).1 hg
  refine ⟨fun hpos => ?_, fun hneg => ?_, ?_⟩
  · cases l with
    | NULL => simp at hc hpos; omega
    | mk ll lr lh lv =>
      refine ⟨rfl, fun c hc1 hc2 => ?_⟩
      simp only [balance_factor_mk, Option.some.injEq] at hc1
      cases lr with
      | NULL => have := node_height_ge ll hl.2.1; simp at hc1; omega
      | mk lrl lrr lrh lrv => exact ⟨_, rfl, rfl⟩
  · cases r with
    | NULL => simp at hc hneg; omega
    | mk rl rr rh rv =>
      refine ⟨rfl, fun c hc1 hc2 => ?_⟩
      simp only [balance_factor_mk, Option.some.injEq] at hc1
      cases rl with
      | NULL => have := node_height_ge rr hr.2.2; simp at hc1; omega
      | mk rll rlr rlh rlv => exact ⟨_, rfl, rfl⟩
  · obtain ⟨t, e, -⟩ := rebalance_safe l r h v hl hr hg
    exact ⟨t, e⟩

theorem rebalance_children_present_witness :
    height_correct sample_four.root ∧ height_correct NODE.NULL ∧
      balance_factor (NODE.mk sample_four.root NODE.NULL 3 9) = some 3 ∧
      (3 : Int) * 3 > 2 ∧
      ((3 : Int) ≥ 0 → sample_four.root.is_null = false ∧
        ∀ c, balance_factor sample_four.root = some c → c < 0 →
          ∃ lr, sample_four.root.right_link = some lr ∧ lr.is_null = false) ∧
      ((3 : Int) < 0 → NODE.NULL.is_null = false ∧
        ∀ c, balance_factor NODE.NULL = some c → c > 0 →
          ∃ rl, NODE.NULL.left_link = some rl ∧ rl.is_null = false) ∧
      ∃ t, rebalance (NODE.mk sample_four.root NODE.NULL 3 9) = some t :=
  ⟨by decide, by decide, by decide, by decide,
    rebalance_children_present sample_four.root NODE.NULL 3 9 3
      (by decide) (by decide) (by decide) (by decide)⟩

/-- C20: a single mutation changes the height of a subtree by at most one.  For
every BST-ordered, height-correct, AVL-balanced tree `t` of height `h` (the
empty tree has height `-1`) and every value `v`, `insert_avl_node t v` returns a
tree of height `h` or `h + 1` and `remove_avl_node t v` returns a tree of height
`h` or `h - 1`. -/
theorem mutation_changes_height_by_at_most_one (t : NODE) (v : Int)
    (hbst : bst_order t) (hh : height_correct t) (hb : avl_balance t) :
    (∃ t1 log, insert_avl_node t v = some (t1, log) ∧
      (node_height t1 = node_height t ∨ node_height t1 = node_height t + 1)) ∧
    (∃ t2 log, remove_avl_node t v = some (t2, log) ∧
      (node_height t2 = node_height t ∨ node_height t2 = node_height t - 1)) := by
  obtain ⟨t1, log1, e1, -, -, -, -, a, -⟩ := insert_avl_node_spec t v hh hb
  obtain ⟨t2, log2, e2, -, -, -, -, c⟩ := remove_avl_node_spec t v hbst hh hb
  exact ⟨⟨t1, log1, e1, a⟩, ⟨t2, log2, e2, c⟩⟩

theorem mutation_changes_height_by_at_most_one_witness :
    bst_order sample_four.root ∧ height_correct sample_four.root ∧
      avl_balance sample_four.root ∧
      (∃ t1 log, insert_avl_node sample_four.root 0 = some (t1, log) ∧
        (node_height t1 = node_height sample_four.root ∨
          node_height t1 = node_height sample_four.root + 1)) ∧
      (∃ t2 log, remove_avl_node sample_four.root 0 = some (t2, log) ∧
        (node_height t2 = node_height sample_four.root ∨
          node_height t2 = node_height sample_four.root - 1)) :=
  ⟨by decide, by decide, by decide,
    mutation_changes_height_by_at_most_one sample_four.root 0
      (by decide) (by decide) (by decide)⟩

/-! ## Where `rebalance` is called -/

theorem rebalance_calls_append (xs ys : List Event) :
    rebalance_calls (xs ++ ys) = rebalance_calls xs ++ rebalance_calls ys := by
  induction xs with
  | nil => simp [rebalance_calls]
  | cons e es ih =>
    cases e <;> simp [rebalance_calls, ih]

theorem calls_off_by_two_snoc (log : List Event) (a : NODE)
    (h : calls_off_by_two log)
    (ha : balance_factor a = some 2 ∨ balance_factor a = some (-2)) :
    calls_off_by_two (log ++ [Event.rebalance_call a]) := by
  intro c hc
  rw [rebalance_calls_append] at hc
  simp only [rebalance_calls, List.mem_append, List.mem_singleton] at hc
  rcases hc with hc | hc
  · exact h c hc
  · rw [hc]; exact ha

theorem three_cases (a b : Int) (hd : |a - b| ≤ 2) :
    |a - b| ≤ 1 ∨ a = b + 2 ∨ b = a + 2 := by
  rw [abs_le] at *; omega

/-- The common tail calls `rebalance` only on a node that is off by exactly
two, when the heights of the children differ by at most two. -/
theorem update_and_check_calls (l r : NODE) (h v : Int) (log : List Event)
    (hl : height_correct l) (hr : height_correct r)
    (bl : avl_balance l) (br : avl_balance r)
    (hd : |node_height l - node_height r| ≤ 2) (hgood : calls_off_by_two log)
    (t : NODE) (log1 : List Event)
    (e : update_and_check (NODE.mk l r h v) log = some (t, log1)) :
    calls_off_by_two log1 := by
  obtain ⟨t0, log0, e0, -, -, -, -, c5, c6, c7⟩ :=
    update_and_check_spec l r h v log hl hr bl br hd
  rw [e0] at e
  obtain ⟨-, rfl⟩ := Prod.mk.inj (Option.some.inj e)
  rcases three_cases _ _ hd with hc | hc | hc
  · rw [(c5 hc).2]; exact hgood
  · rw [(c6 hc).1]
    refine calls_off_by_two_snoc _ _ hgood (Or.inl ?_)
    rw [balance_factor_mk, hc]; congr 1; omega
  · rw [(c7 hc).1]
    refine calls_off_by_two_snoc _ _ hgood (Or.inr ?_)
    rw [balance_factor_mk, hc]; congr 1; omega

theorem calls_off_by_two_nil : calls_off_by_two [] := by
  intro a ha; simp [rebalance_calls] at ha

theorem insert_avl_node_calls (t : NODE) (x : Int)
    (hh : height_correct t) (hb : avl_balance t) (t1 : NODE) (log : List Event)
    (e : insert_avl_node t x = some (t1, log)) : calls_off_by_two log := by
  induction t generalizing t1 log with
  | NULL =>
    rw [insert_avl_node_NULL] at e
    obtain ⟨-, rfl⟩ := Prod.mk.inj (Option.some.inj e)
    exact calls_off_by_two_nil
  | mk l r h v ihl ihr =>
    obtain ⟨hh1, hh2, hh3⟩ := hh
    obtain ⟨hb1, hb2, hb3⟩ := hb
    rcases lt_trichotomy x v with hx | hx | hx
    · obtain ⟨l1, logl, el, a1, a2, -, -, a5, -⟩ := insert_avl_node_spec l x hh2 hb2
      rw [insert_avl_node_mk_lt _ _ _ _ _ hx, el, Option.some_bind] at e
      exact update_and_check_calls l1 r h v logl a1 hh3 a2 hb3
        (grow_cases_l _ _ _ hb1 a5).1 (ihl hh2 hb2 l1 logl el) t1 log e
    · subst hx
      rw [insert_avl_node_mk_eq] at e
      obtain ⟨-, rfl⟩ := Prod.mk.inj (Option.some.inj e)
      intro a ha; simp [rebalance_calls] at ha
    · obtain ⟨r1, logr, er, a1, a2, -, -, a5, -⟩ := insert_avl_node_spec r x hh3 hb3
      rw [insert_avl_node_mk_gt _ _ _ _ _ hx, er, Option.some_bind] at e
      exact update_and_check_calls l r1 h v logr hh2 a1 hb2 a2
        (grow_cases_r _ _ _ hb1 a5).1 (ihr hh3 hb3 r1 logr er) t1 log e

theorem remove_avl_node_calls (t : NODE) (x : Int)
    (hbst : bst_order t) (hh : height_correct t) (hb : avl_balance t)
    (t1 : NODE) (log : List Event)
    (e : remove_avl_node t x = some (t1, log)) : calls_off_by_two log := by
  induction t generalizing x t1 log with
  | NULL =>
    have e0 : remove_avl_node NODE.NULL x = some (NODE.NULL, []) := rfl
    rw [e0] at e
    obtain ⟨-, rfl⟩ := Prod.mk.inj (Option.some.inj e)
    exact calls_off_by_two_nil
  | mk l r h v ihl ihr =>
    obtain ⟨b1, b2, b3, b4⟩ := hbst
    obtain ⟨hh1, hh2, hh3⟩ := hh
    obtain ⟨hb1, hb2, hb3⟩ := hb
    rcases lt_trichotomy x v with hx | hx | hx
    · obtain ⟨l1, logl, el, a1, a2, -, -, a5⟩ := remove_avl_node_spec l x b3 hh2 hb2
      rw [remove_avl_node_mk_lt _ _ _ _ _ hx, el, Option.some_bind] at e
      exact update_and_check_calls l1 r h v logl a1 hh3 a2 hb3
        (shrink_cases_l _ _ _ hb1 a5).1 (ihl x b3 hh2 hb2 l1 logl el) t1 log e
    · subst hx
      cases r with
      | NULL =>
        rw [remove_avl_node_mk_eq_right_NULL, remove_tail_self l _ hh2 hb2] at e
        obtain ⟨-, rfl⟩ := Prod.mk.inj (Option.some.inj e)
        intro a ha; simp [rebalance_calls] at ha
      | mk rl rr rh rv =>
        cases l with
        | NULL =>
          rw [remove_avl_node_mk_eq_left_NULL, remove_tail_self _ _ hh3 hb3] at e
          obtain ⟨-, rfl⟩ := Prod.mk.inj (Option.some.inj e)
          intro a ha; simp [rebalance_calls] at ha
        | mk ll lr lh lv =>
          obtain ⟨m, em, -, -⟩ :=
            smallest_in_subtree_spec (NODE.mk rl rr rh rv) (by simp) b4
          obtain ⟨r1, logr, er, a1, a2, -, -, a5⟩ :=
            remove_avl_node_spec (NODE.mk rl rr rh rv) m b4 hh3 hb3
          rw [remove_avl_node_mk_eq_two, em, Option.some_bind, er, Option.some_bind] at e
          have hg : calls_off_by_two (Event.two_children x m :: logr) :=
            ihr m b4 hh3 hb3 r1 logr er
          exact update_and_check_calls (NODE.mk ll lr lh lv) r1 h m _ hh2 a1 hb2 a2
            (shrink_cases_r _ _ _ hb1 a5).1 hg t1 log e
    · obtain ⟨r1, logr, er, a1, a2, -, -, a5⟩ := remove_avl_node_spec r x b4 hh3 hb3
      rw [remove_avl_node_mk_gt _ _ _ _ _ hx, er, Option.some_bind] at e
      exact update_and_check_calls l r1 h v logr hh2 a1 hb2 a2
        (shrink_cases_r _ _ _ hb1 a5).1 (ihr x b4 hh3 hb3 r1 logr er) t1 log e

/-- C16: `rebalance` is only ever reached with a balance factor of magnitude
exactly 2.  For every BST-ordered, height-correct, AVL-balanced tree and every
value `v`, `insert_avl_node` and `remove_avl_node` return, and every call of
`rebalance` recorded in their traces is on a node whose balance factor is
exactly `2` or exactly `-2`; so whenever the balance factor of such a node is
`≥ 0` it is `2`. -/
theorem rebalance_only_when_off_by_two (tree : AVL) (v : Int)
    (hbst : bst_order tree.root) (hh : height_correct tree.root)
    (hb : avl_balance tree.root) :
    (∃ t log, insert_avl_node tree.root v = some (t, log) ∧ calls_off_by_two log ∧
      ∀ a ∈ rebalance_calls log, ∀ b, balance_factor a = some b → b ≥ 0 → b = 2) ∧
    (∃ t log, remove_avl_node tree.root v = some (t, log) ∧ calls_off_by_two log ∧
      ∀ a ∈ rebalance_calls log, ∀ b, balance_factor a = some b → b ≥ 0 → b = 2) := by
  have key : ∀ log, calls_off_by_two log →
      ∀ a ∈ rebalance_calls log, ∀ b, balance_factor a = some b → b ≥ 0 → b = 2 := by
    intro log hg a ha b hb1 hb2
    rcases hg a ha with h2 | h2
    · rw [h2] at hb1; exact (Option.some.inj hb1).symm
    · rw [h2] at hb1
      have := Option.some.inj hb1
      omega
  obtain ⟨t1, log1, e1, -⟩ := insert_avl_node_spec tree.root v hh hb
  obtain ⟨t2, log2, e2, -⟩ := remove_avl_node_spec tree.root v hbst hh hb
  have g1 := insert_avl_node_calls tree.root v hh hb t1 log1 e1
  have g2 := remove_avl_node_calls tree.root v hbst hh hb t2 log2 e2
  exact ⟨⟨t1, log1, e1, g1, key log1 g1⟩, ⟨t2, log2, e2, g2, key log2 g2⟩⟩

theorem rebalance_only_when_off_by_two_witness :
    bst_order sample_four.root ∧ height_correct sample_four.root ∧
      avl_balance sample_four.root ∧
      (∃ t log, insert_avl_node sample_four.root 1 = some (t, log) ∧ calls_off_by_two log ∧
        ∀ a ∈ rebalance_calls log, ∀ b, balance_factor a = some b → b ≥ 0 → b = 2) ∧
      (∃ t log, remove_avl_node sample_four.root 1 = some (t, log) ∧ calls_off_by_two log ∧
        ∀ a ∈ rebalance_calls log, ∀ b, balance_factor a = some b → b ≥ 0 → b = 2) :=
  ⟨by decide, by decide, by decide,
    rebalance_only_when_off_by_two sample_four 1 (by decide) (by decide) (by decide)⟩

/-- C17: removal can need several rebalancing steps.  There is a BST-ordered,
height-correct, AVL-balanced tree and a value stored in it for which
`remove_avl_node` calls `rebalance` twice, at two different nodes of the path
back to the root: in the tree `sample_cascade`, removing `1` calls `rebalance`
first on the node holding `2` and then on the root, which holds `5`. -/
theorem removal_can_rebalance_twice :
    ∃ (tree : AVL) (v : Int),
      bst_order tree.root ∧ height_correct tree.root ∧ avl_balance tree.root ∧
      v ∈ avl_print_sorted tree.root ∧
      ∃ t log, remove_avl_node tree.root v = some (t, log) ∧
        2 ≤ rebalance_count log ∧
        (rebalance_calls log).map root_value = [some 2, some 5] ∧
        avl_balance t ∧ height_correct t := by
  refine ⟨sample_cascade, 1, by decide, by decide, by decide, by decide, _, _, rfl,
    ?_, ?_, ?_, ?_⟩ <;> decide

/-! ## Insertion and removal on trees that are only height-correct -/

theorem invalid_mem_tail (log log1 : List Event)
    (h : log1 = log ∨ ∃ a, log1 = log ++ [Event.rebalance_call a]) :
    Event.invalid_value ∈ log1 ↔ Event.invalid_value ∈ log := by
  rcases h with rfl | ⟨a, rfl⟩
  · exact Iff.rfl
  · simp

theorem mem_left_iff (A B : List Int) (x v : Int) (hx : x < v) (hB : ∀ y ∈ B, v < y) :
    x ∈ A ++ v :: B ↔ x ∈ A := by
  have f1 : x ≠ v := by omega
  have f2 : x ∉ B := fun hy => by have := hB x hy; omega
  simp only [List.mem_append, List.mem_cons]; tauto

theorem mem_right_iff (A B : List Int) (x v : Int) (hx : v < x) (hA : ∀ y ∈ A, y < v) :
    x ∈ A ++ v :: B ↔ x ∈ B := by
  have f1 : x ≠ v := by omega
  have f2 : x ∉ A := fun hy => by have := hA x hy; omega
  simp only [List.mem_append, List.mem_cons]; tauto

/-- Insertion into a height-correct tree returns; on a BST-ordered tree it
prints the message exactly when the value is stored. -/
theorem insert_avl_node_total (t : NODE) (x : Int) (hh : height_correct t) :
    ∃ t1 log, insert_avl_node t x = some (t1, log) ∧ height_correct t1 ∧
      (∀ y, y ∈ avl_print_sorted t1 ↔ y = x ∨ y ∈ avl_print_sorted t) ∧
      (bst_order t → (Event.invalid_value ∈ log ↔ x ∈ avl_print_sorted t)) := by
  induction t with
  | NULL =>
    refine ⟨_, _, insert_avl_node_NULL x, ⟨by simp, trivial, trivial⟩, ?_, ?_⟩
    · simp [avl_print_sorted]
    · intro _; simp [avl_print_sorted]
  | mk l r h v ihl ihr =>
    obtain ⟨hh1, hh2, hh3⟩ := hh
    rcases lt_trichotomy x v with hx | hx | hx
    · obtain ⟨l1, logl, e, a1, a2, a3⟩ := ihl hh2
      obtain ⟨t1, log1, e1, c1, c2, -, c4⟩ := update_and_check_total l1 r h v logl a1 hh3
      refine ⟨t1, log1, ?_, c1, ?_, ?_⟩
      · rw [insert_avl_node_mk_lt _ _ _ _ _ hx, e]; exact e1
      · intro y; rw [c2]; exact mem_insert_left _ _ _ x v a2 y
      · rintro ⟨-, b2, b3, -⟩
        rw [invalid_mem_tail logl log1 c4, a3 b3, avl_print_sorted, mem_left_iff _ _ x v hx b2]
    · subst hx
      refine ⟨_, _, insert_avl_node_mk_eq l r h x, ⟨hh1, hh2, hh3⟩, ?_, ?_⟩
      · intro y; simp only [avl_print_sorted, List.mem_append, List.mem_cons]
        constructor
        · exact fun hy => Or.inr hy
        · rintro (rfl | hy)
          · exact Or.inr (Or.inl rfl)
          · exact hy
      · intro _; simp [avl_print_sorted]
    · obtain ⟨r1, logr, e, a1, a2, a3⟩ := ihr hh3
      obtain ⟨t1, log1, e1, c1, c2, -, c4⟩ := update_and_check_total l r1 h v logr hh2 a1
      refine ⟨t1, log1, ?_, c1, ?_, ?_⟩
      · rw [insert_avl_node_mk_gt _ _ _ _ _ hx, e]; exact e1
      · intro y; rw [c2]; exact mem_insert_right _ _ _ x v a2 y
      · rintro ⟨b1, -, -, b4⟩
        rw [invalid_mem_tail logr log1 c4, a3 b4, avl_print_sorted, mem_right_iff _ _ x v hx b1]

/-- C12: insert reports its outcome.  For every tree the program can hold, that
is, every BST-ordered tree whose cached heights are correct and which is
AVL-balanced, and every value `v`, `insert_avl tree v` returns; it prints
"Invalid value." exactly when `v` is already stored in the tree; otherwise it
prints nothing and the resulting tree stores `v`. -/
theorem insert_reports_outcome (tree : AVL) (v : Int)
    (hbst : bst_order tree.root) (hh : height_correct tree.root)
    (hb : avl_balance tree.root) :
    ∃ root1 log, insert_avl_node tree.root v = some (root1, log) ∧
      insert_avl tree v = some ⟨root1⟩ ∧
      (Event.invalid_value ∈ log ↔ v ∈ avl_print_sorted tree.root) ∧
      (v ∉ avl_print_sorted tree.root →
        Event.invalid_value ∉ log ∧ v ∈ avl_print_sorted root1) := by
  obtain ⟨t1, log, e, -, -, a2, -⟩ := insert_avl_node_spec tree.root v hh hb
  obtain ⟨t0, log0, e0, -, -, a3⟩ := insert_avl_node_total tree.root v hh
  rw [e] at e0
  obtain ⟨-, rfl⟩ := Prod.mk.inj (Option.some.inj e0)
  refine ⟨t1, log, e, by simp [insert_avl, e], a3 hbst, fun hv => ⟨?_, ?_⟩⟩
  · rw [a3 hbst]; exact hv
  · exact (a2 v).2 (Or.inl rfl)

theorem insert_reports_outcome_witness :
    bst_order sample_left_chain.root ∧ height_correct sample_left_chain.root ∧
      avl_balance sample_left_chain.root ∧
      ∃ root1 log, insert_avl_node sample_left_chain.root 0 = some (root1, log) ∧
        insert_avl sample_left_chain 0 = some ⟨root1⟩ ∧
        (Event.invalid_value ∈ log ↔ (0 : Int) ∈ avl_print_sorted sample_left_chain.root) ∧
        ((0 : Int) ∉ avl_print_sorted sample_left_chain.root →
          Event.invalid_value ∉ log ∧ (0 : Int) ∈ avl_print_sorted root1) :=
  ⟨by decide, by decide, by decide,
    insert_reports_outcome sample_left_chain 0 (by decide) (by decide) (by decide)⟩

theorem branch_counts_tail (log log1 : List Event)
    (h : log1 = log ∨ ∃ a, log1 = log ++ [Event.rebalance_call a]) :
    two_children_count log1 = two_children_count log ∧
      splice_count log1 = splice_count log := by
  rcases h with rfl | ⟨a, rfl⟩
  · exact ⟨rfl, rfl⟩
  · induction log with
    | nil => exact ⟨rfl, rfl⟩
    | cons e es ih =>
      cases e <;> simp [two_children_count, splice_count, ih.1, ih.2]

/-- Removing the smallest value of a BST-ordered, height-correct, non-empty
tree: the search follows left links, takes the zero-or-one-child branch once
and never the two-children branch, and the in-order sequence loses its head. -/
theorem remove_smallest (r : NODE) (hne : r.is_null = false)
    (hbst : bst_order r) (hh : height_correct r) :
    ∃ m r1 log, smallest_in_subtree r = some m ∧
      remove_avl_node r m = some (r1, log) ∧ height_correct r1 ∧
      avl_print_sorted r = m :: avl_print_sorted r1 ∧
      two_children_count log = 0 ∧ splice_count log = 1 := by
  induction r with
  | NULL => simp [NODE.is_null] at hne
  | mk rl rr rh rv ihl _ =>
    obtain ⟨b1, b2, b3, b4⟩ := hbst
    obtain ⟨hh1, hh2, hh3⟩ := hh
    cases rl with
    | NULL =>
      cases rr with
      | NULL =>
        refine ⟨rv, NODE.NULL, [Event.splice_out rv], by simp [smallest_in_subtree], ?_,
          trivial, by simp [avl_print_sorted], rfl, rfl⟩
        rw [remove_avl_node_mk_eq_right_NULL]; rfl
      | mk rrl rrr rrh rrv =>
        obtain ⟨-, g2, g3⟩ := hh3
        obtain ⟨t, log1, e1, c1, c2, -, c4⟩ :=
          update_and_check_total rrl rrr rrh rrv [Event.splice_out rv] g2 g3
        obtain ⟨k1, k2⟩ := branch_counts_tail _ _ c4
        refine ⟨rv, t, log1, by simp [smallest_in_subtree], ?_, c1, ?_, ?_, ?_⟩
        · rw [remove_avl_node_mk_eq_left_NULL, remove_tail_mk]; exact e1
        · rw [c2]; simp [avl_print_sorted]
        · rw [k1]; rfl
        · rw [k2]; rfl
    | mk rll rlr rlh rlv =>
      obtain ⟨m, l1, logl, em, e, a1, a2, a3, a4⟩ := ihl rfl b3 hh2
      have hm : m < rv := b1 m (by rw [a2]; exact List.mem_cons_self _ _)
      obtain ⟨t, log1, e1, c1, c2, -, c4⟩ := update_and_check_total l1 rr rh rv logl a1 hh3
      obtain ⟨k1, k2⟩ := branch_counts_tail _ _ c4
      refine ⟨m, t, log1, by simpa [smallest_in_subtree] using em, ?_, c1, ?_, ?_, ?_⟩
      · rw [remove_avl_node_mk_lt _ _ _ _ _ hm, e]; exact e1
      · rw [c2, avl_print_sorted, a2]; rfl
      · rw [k1]; exact a3
      · rw [k2]; exact a4

/-- C18: the nested removal in the two-children case hits the zero-or-one-child
case.  For every node with two children of a tree the program can hold
(BST-ordered, cached heights correct, AVL-balanced), `smallest_in_subtree` of
the right child returns the minimum `m` of the right subtree; the recursive call
`remove_avl_node right m` returns, deletes the leftmost value of the right
subtree, takes the zero-or-one-child branch exactly once and never the
two-children branch, and leaves a height-correct, AVL-balanced subtree; and
`remove_avl_node` of the node's own value returns. -/
theorem nested_removal_hits_splice (ll lr rl rr : NODE) (lh lv rh rv h v : Int)
    (hbst : bst_order (NODE.mk (NODE.mk ll lr lh lv) (NODE.mk rl rr rh rv) h v))
    (hh : height_correct (NODE.mk (NODE.mk ll lr lh lv) (NODE.mk rl rr rh rv) h v))
    (hb : avl_balance (NODE.mk (NODE.mk ll lr lh lv) (NODE.mk rl rr rh rv) h v)) :
    ∃ m r1 log, smallest_in_subtree (NODE.mk rl rr rh rv) = some m ∧
      m ∈ avl_print_sorted (NODE.mk rl rr rh rv) ∧
      (∀ y ∈ avl_print_sorted (NODE.mk rl rr rh rv), m ≤ y) ∧
      remove_avl_node (NODE.mk rl rr rh rv) m = some (r1, log) ∧
      avl_print_sorted (NODE.mk rl rr rh rv) = m :: avl_print_sorted r1 ∧
      two_children_count log = 0 ∧ splice_count log = 1 ∧
      height_correct r1 ∧ avl_balance r1 ∧
      ∃ t1 log1, remove_avl_node
        (NODE.mk (NODE.mk ll lr lh lv) (NODE.mk rl rr rh rv) h v) v = some (t1, log1) ∧
        root_value t1 ≠ none := by
  obtain ⟨b1, b2, b3, b4⟩ := hbst
  obtain ⟨-, hh2, hh3⟩ := hh
  obtain ⟨-, -, hb3⟩ := hb
  obtain ⟨m0, em0, hm0, hmin⟩ := smallest_in_subtree_spec (NODE.mk rl rr rh rv) (by simp) b4
  obtain ⟨m, r1, log, em, e, a1, a2, a3, a4⟩ := remove_smallest (NODE.mk rl rr rh rv) rfl b4 hh3
  have hmm : m0 = m := by rw [em0] at em; exact Option.some.inj em
  subst hmm
  obtain ⟨r2, log2, e2, -, c2, -⟩ := remove_avl_node_spec (NODE.mk rl rr rh rv) m0 b4 hh3 hb3
  rw [e] at e2
  obtain ⟨rfl, -⟩ := Prod.mk.inj (Option.some.inj e2)
  obtain ⟨t1, log1, e1, -, -, c3, -⟩ :=
    update_and_check_total (NODE.mk ll lr lh lv) r1 h m0 (Event.two_children v m0 :: log) hh2 a1
  refine ⟨m0, r1, log, em, hm0, hmin, e, a2, a3, a4, a1, c2, t1, log1, ?_, ?_⟩
  · rw [remove_avl_node_mk_eq_two, em, Option.some_bind, e]; exact e1
  · cases t1 with
    | NULL => simp [NODE.is_null] at c3
    | mk _ _ _ _ => simp [root_value]

theorem nested_removal_hits_splice_witness :
    bst_order sample_cascade.root ∧ height_correct sample_cascade.root ∧
      avl_balance sample_cascade.root ∧
      ∃ m r1 log,
        smallest_in_subtree (NODE.mk (NODE.mk NODE.NULL (leaf 7) 1 6)
          (NODE.mk (leaf 9) (NODE.mk NODE.NULL (leaf 12) 1 11) 2 10) 3 8) = some m ∧
        m ∈ avl_print_sorted (NODE.mk (NODE.mk NODE.NULL (leaf 7) 1 6)
          (NODE.mk (leaf 9) (NODE.mk NODE.NULL (leaf 12) 1 11) 2 10) 3 8) ∧
        (∀ y ∈ avl_print_sorted (NODE.mk (NODE.mk NODE.NULL (leaf 7) 1 6)
          (NODE.mk (leaf 9) (NODE.mk NODE.NULL (leaf 12) 1 11) 2 10) 3 8), m ≤ y) ∧
        remove_avl_node (NODE.mk (NODE.mk NODE.NULL (leaf 7) 1 6)
          (NODE.mk (leaf 9) (NODE.mk NODE.NULL (leaf 12) 1 11) 2 10) 3 8) m = some (r1, log) ∧
        avl_print_sorted (NODE.mk (NODE.mk NODE.NULL (leaf 7) 1 6)
          (NODE.mk (leaf 9) (NODE.mk NODE.NULL (leaf 12) 1 11) 2 10) 3 8)
          = m :: avl_print_sorted r1 ∧
        two_children_count log = 0 ∧ splice_count log = 1 ∧
        height_correct r1 ∧ avl_balance r1 ∧
        ∃ t1 log1, remove_avl_node sample_cascade.root 5 = some (t1, log1) ∧
          root_value t1 ≠ none :=
  ⟨by decide, by decide, by decide,
    nested_removal_hits_splice (leaf 1) (NODE.mk NODE.NULL (leaf 4) 1 3)
      (NODE.mk NODE.NULL (leaf 7) 1 6)
      (NODE.mk (leaf 9) (NODE.mk NODE.NULL (leaf 12) 1 11) 2 10) 2 2 3 8 4 5
      (by decide) (by decide) (by decide)⟩

end Avl
